import Mathlib

/-!
Verification of the pawlette theme manager (meowrch/pawlette) against its
natural-language specification.

The development shallowly embeds the Python sources:
* `src/pawlette/core/installer.py` — archive extraction filter, permission
  normalization, version extraction from archive filenames;
* `src/theming/patch_engine.py` — the idempotent marker-patch engine;
* `src/pawlette/core/selective_manager.py` — marker cleanup, gitignore-style
  pattern matching, and the branch-per-theme state engine;
* `src/pawlette/__main__.py` — the CLI command surface.

Strings are modeled as `List Char` (`Str` below) so that all operations are
executable and provable by structural recursion.  Python regular expressions
appearing in the sources are compiled by hand into equivalent executable
matchers over this representation; the compilation is documented next to each
matcher.
-/

/-- Character-list strings: the working representation for embedded Python
text values. -/
abbrev Str := List Char

/-- Python's whitespace set.  `str.isspace`, `str.strip()` and the regex
class `\s` (with `str` patterns) all accept exactly these code points:
the ASCII whitespace characters, the C1 separators, and the Unicode
space/line/paragraph separators. -/
def pyIsSpace (c : Char) : Bool :=
  c = ' ' || c = '\t' || c = '\n' || c = '\r' || c = '\x0b' || c = '\x0c' ||
  c = '\x1c' || c = '\x1d' || c = '\x1e' || c = '\x1f' || c = '\u0085' ||
  c = '\u00a0' || c = '\u1680' ||
  ('\u2000' ≤ c && c ≤ '\u200a') ||
  c = '\u2028' || c = '\u2029' || c = '\u202f' || c = '\u205f' || c = '\u3000'

/-- Python `str.lstrip()` with no argument: drop leading whitespace. -/
def pyLStrip (s : Str) : Str := s.dropWhile pyIsSpace

/-- Python `str.rstrip()` with no argument: drop trailing whitespace. -/
def pyRStrip (s : Str) : Str := (s.reverse.dropWhile pyIsSpace).reverse

/-- Python `str.strip()` with no argument. -/
def pyStrip (s : Str) : Str := pyRStrip (pyLStrip s)

/-- ASCII-only lower-casing, as applied by case-insensitive regex matching on
the ASCII marker text. -/
def lowerChar (c : Char) : Char :=
  if 'A' ≤ c ∧ c ≤ 'Z' then Char.ofNat (c.toNat + 32) else c

def lowerStr (s : Str) : Str := s.map lowerChar

/-- Substring containment (`needle` occurs contiguously in `hay`). -/
def containsSub (hay needle : Str) : Bool :=
  match hay with
  | [] => needle.isEmpty
  | _ :: t => needle.isPrefixOf hay || containsSub t needle

/-- Case-insensitive substring containment. -/
def containsSubCI (hay needle : Str) : Bool :=
  containsSub (lowerStr hay) (lowerStr needle)

section FixPermissions

/-!
## `Installer._fix_permissions` (src/pawlette/core/installer.py:182-220)

The function walks the extracted theme directory.  For each entry it skips
symlinks, sets directories to `0o755`, and sets regular files to `0o755` when
`current_mode & stat.S_IXUSR` is nonzero and to `0o644` otherwise.  An entry
is modeled by its symlink/dir flags and its `st_mode` permission bits.
-/

structure FsEntry where
  isSymlink : Bool
  isDir : Bool
  mode : Nat
deriving DecidableEq, Repr

/-- `stat.S_IXUSR` — the only execute bit the code consults. -/
def S_IXUSR : Nat := 0o100

/-- Mode normalization applied to one entry of `path.rglob("*")`, following
the `if/elif/else` chain of `_fix_permissions` line by line. -/
def fixEntryMode (e : FsEntry) : FsEntry :=
  if e.isSymlink then e
  else if e.isDir then { e with mode := 0o755 }
  else if e.mode &&& S_IXUSR ≠ 0 then { e with mode := 0o755 }
  else { e with mode := 0o644 }

/-- `Installer._fix_permissions` over the recursively listed entries (the root
directory itself is additionally chmodded to `0o755`, which the per-entry rule
for directories already reproduces). -/
def fixPermissions (entries : List FsEntry) : List FsEntry :=
  entries.map fixEntryMode

/-- Any execute bit: user, group, or other — the condition the spec claims is
honored. -/
def anyExecBit (mode : Nat) : Bool := mode &&& 0o111 ≠ 0

end FixPermissions

/-- **C4.**  The spec states that after `_fix_permissions` every regular file
has mode `0o755` if *any* execute bit (user, group, or other) was set before
the call.  The code tests only `stat.S_IXUSR`: a regular file with mode
`0o614` (group-execute set, user-execute clear) is normalized to `0o644`,
although its group execute bit was set, so the spec (and the code's own
comment, which promises 0o755 for "любой бит исполнения") demands `0o755`. -/
theorem C4_fix_permissions_group_exec_bug :
    fixPermissions [⟨false, false, 0o614⟩] = [⟨false, false, 0o644⟩] ∧
    anyExecBit 0o614 = true ∧ (0o644 : Nat) ≠ 0o755 := by
  refine ⟨rfl, rfl, by decide⟩

section CLI

/-!
## CLI dispatch (src/pawlette/__main__.py)

`configure_argparser` registers subparsers with
`add_subparsers(dest="command", required=True)`.  `argparse` therefore rejects
any command word that is not a registered subcommand with a usage error and
process exit code 2 before `main`'s `match` statement runs; the
`case _: logger.warning(...)` fallback (line 313-314) is unreachable because
every registered subcommand has an explicit case.
-/

/-- The subcommands registered in `configure_argparser`
(src/pawlette/__main__.py:14-136). -/
def definedCommands : List String :=
  ["generate-config", "get-themes", "get-available-themes", "get-themes-info",
   "install-theme", "update-theme", "update-all-themes", "set-theme", "apply",
   "restore", "reset-theme", "current-theme", "status", "history",
   "user-changes", "restore-commit"]

/-- Outcome of invoking the CLI with a given command word: either `argparse`
aborts with a usage error (exit code 2), or the command is dispatched to
`main`'s `match`. -/
inductive CliOutcome where
  | usageError (exitCode : Nat)
  | dispatched (command : String)
deriving DecidableEq, Repr

/-- Command-word handling of `pawlette <command>`: `argparse` with required
subparsers exits with code 2 on an invalid choice; a valid choice reaches the
`match` in `main`. -/
def runCLI (command : String) : CliOutcome :=
  if command ∈ definedCommands then .dispatched command
  else .usageError 2

/-- Exit code of the process for the command-word-validation stage alone
(dispatched commands go on to run their handler; `main` returning normally
exits 0). -/
def cliParseExitCode (command : String) : Nat :=
  match runCLI command with
  | .usageError c => c
  | .dispatched _ => 0

/-- **C8 counterexample.**  The claim says an undefined command emits a warning
and exits 0.  `uninstall-theme` (listed in the spec's CLI surface) is not a
registered subcommand, and the CLI exits with `argparse`'s usage error code 2,
not 0. -/
theorem C8_unknown_command_exits_two :
    runCLI "uninstall-theme" = .usageError 2 ∧
    cliParseExitCode "uninstall-theme" = 2 ∧ (2 : Nat) ≠ 0 := by
  refine ⟨by decide, by decide, by decide⟩

/-- **C8 (amended).**  For every command word that is not one of the defined
subcommands, the CLI aborts in argument parsing with exit code 2 (a usage
error); the warning-and-exit-0 fallback in `main` is unreachable. -/
theorem C8_unknown_command_usage_error (cmd : String)
    (h : cmd ∉ definedCommands) :
    runCLI cmd = .usageError 2 ∧ cliParseExitCode cmd = 2 := by
  constructor
  · simp [runCLI, h]
  · simp [cliParseExitCode, runCLI, h]

/-- Witness for `C8_unknown_command_usage_error` at the concrete undefined
command `frobnicate`. -/
theorem C8_unknown_command_usage_error_witness :
    runCLI "frobnicate" = .usageError 2 ∧ cliParseExitCode "frobnicate" = 2 :=
  C8_unknown_command_usage_error "frobnicate" (by decide)

end CLI

section ArchiveExtraction

/-!
## `Installer._install_theme_from_archive_file` (src/pawlette/core/installer.py:389-457)

The extraction step enumerates tar members, computes `os.path.commonpath` of
the member names, strips that prefix when every name starts with it, and then
keeps a member only when
`os.path.abspath(os.path.join(theme_target_dir, member.name))` starts (as a
*string prefix*) with `os.path.abspath(theme_target_dir)`.  Kept members are
extracted under `theme_target_dir`, so the file a member produces lands at
the lexically normalized join of the two — modeled by `pyAbspath ∘ pyJoin`.

All inputs exercised here are POSIX paths; member names in a tar archive are
relative, and the target directory is absolute.
-/

/-- Split a string on a separator character (`str.split(sep)` semantics:
`n+1` fields for `n` separators, empty fields kept). -/
def splitOnSep (sep : Char) : Str → List Str
  | [] => [[]]
  | c :: t =>
    if c = sep then [] :: splitOnSep sep t
    else
      match splitOnSep sep t with
      | [] => [[c]]
      | h :: r => (c :: h) :: r

/-- Join components with a separator (`sep.join(...)`). -/
def joinComps (sep : Char) (comps : List Str) : Str :=
  List.intercalate [sep] comps

/-- Lexicographic comparison of character lists, as Python compares strings
(by code point). -/
def cmpStr : Str → Str → Ordering
  | [], [] => .eq
  | [], _ :: _ => .lt
  | _ :: _, [] => .gt
  | a :: as, b :: bs =>
    match compare a b with
    | .eq => cmpStr as bs
    | o => o

/-- Lexicographic comparison of component lists, as Python compares lists of
strings. -/
def cmpComps : List Str → List Str → Ordering
  | [], [] => .eq
  | [], _ :: _ => .lt
  | _ :: _, [] => .gt
  | a :: as, b :: bs =>
    match cmpStr a b with
    | .eq => cmpComps as bs
    | o => o

/-- Longest common prefix of two component lists up to the first mismatch —
the loop body of `posixpath.commonpath`. -/
def commonUpTo : List Str → List Str → List Str
  | a :: as, b :: bs => if a = b then a :: commonUpTo as bs else []
  | _, _ => []

/-- `os.path.commonpath` for relative POSIX paths: split each path on `/`,
drop empty and `.` components, take the component-wise common prefix of the
lexicographic minimum and maximum, and re-join.  (Python raises `ValueError`
for an empty argument or mixed absolute/relative paths; the caller guards the
former and tar member names are relative.) -/
def pyCommonpath (names : List Str) : Str :=
  let filtered := names.map fun n =>
    (splitOnSep '/' n).filter fun c => c ≠ [] ∧ c ≠ ['.']
  match filtered with
  | [] => []
  | h :: t =>
    let s1 := t.foldl (fun a b => if cmpComps b a = .lt then b else a) h
    let s2 := t.foldl (fun a b => if cmpComps a b = .lt then b else a) h
    joinComps '/' (commonUpTo s1 s2)

/-- `posixpath.join a b` for the two-argument case: an absolute second
argument replaces the first; otherwise the parts are glued with `/` unless
the first already ends in one. -/
def pyJoin (a b : Str) : Str :=
  if b.head? = some '/' then b
  else if a ≠ [] ∧ a.getLast? ≠ some '/' then a ++ '/' :: b
  else a ++ b

/-- Stack-based resolution of `.` and `..` components for an absolute path
(`posixpath.normpath` behavior: `..` at the root is dropped). -/
def normComponents (comps : List Str) : List Str :=
  comps.foldl
    (fun st c =>
      if c = [] ∨ c = ['.'] then st
      else if c = ['.', '.'] then st.dropLast
      else st ++ [c])
    []

/-- `os.path.abspath` restricted to absolute inputs, which is the only way it
is invoked here (both `theme_target_dir` and `os.path.join(theme_target_dir,
member.name)` are absolute): lexical normalization of `.` and `..`.  (For a
relative input Python would first prepend the process working directory.) -/
def pyAbspath (p : Str) : Str :=
  if p.head? = some '/' then '/' :: joinComps '/' (normComponents (splitOnSep '/' p))
  else p

/-- The extraction plan of `_install_theme_from_archive_file`: prefix
stripping (lines 419-440), the `startswith`-based traversal guard (lines
442-447), and for each kept member the normalized filesystem destination of
`tar.extract(member, theme_target_dir)`.  Returns `(member name after
stripping, destination path)` pairs. -/
def archiveExtractDests (themesFolder themeName : Str) (memberNames : List Str) :
    List (Str × Str) :=
  let targetDir := themesFolder ++ '/' :: themeName
  let stripLength :=
    match memberNames with
    | [] => 0
    | _ =>
      let commonDir := pyCommonpath memberNames
      if memberNames.all (fun n => commonDir.isPrefixOf n) then commonDir.length + 1
      else 0
  let renamed := memberNames.filterMap fun n =>
    if stripLength ≠ 0 then
      let n' := n.drop stripLength
      if n' = [] then none else some n'
    else some n
  let kept := renamed.filter fun n =>
    (pyAbspath targetDir).isPrefixOf (pyAbspath (pyJoin targetDir n))
  kept.map fun n => (n, pyAbspath (pyJoin targetDir n))

/-- A normalized path lies inside a directory when it is the directory itself
or extends it past a `/` separator. -/
def insideDir (dir p : Str) : Bool :=
  p = pyAbspath dir || (pyAbspath dir ++ ['/']).isPrefixOf p

end ArchiveExtraction

/-- **C1.**  The claim (and the guard's own comment) says every member whose
normalized destination escapes `<themes-folder>/<name>` is skipped.  The
guard compares `abspath` results with a bare string-prefix test, so for theme
`foo` the archive `["t/a", "t/../foox/pwn"]` keeps the member
`../foox/pwn`, whose destination `/data/themes/foox/pwn` is outside
`/data/themes/foo` — `foox` merely extends the prefix string `foo`.  A plain
`../x`-shaped member (second conjunct) is indeed skipped, but the universal
guard clause of the claim fails on this input. -/
theorem C1_traversal_guard_prefix_bug :
    archiveExtractDests "/data/themes".toList "foo".toList
        ["t/a".toList, "t/../foox/pwn".toList] =
      [("a".toList, "/data/themes/foo/a".toList),
       ("../foox/pwn".toList, "/data/themes/foox/pwn".toList)] ∧
    insideDir "/data/themes/foo".toList "/data/themes/foox/pwn".toList = false ∧
    archiveExtractDests "/data/themes".toList "foo".toList
        ["t/a".toList, "t/../x".toList] =
      [("a".toList, "/data/themes/foo/a".toList)] := by
  refine ⟨by decide, by decide, by decide⟩

section FnmatchModel

/-!
## `fnmatch` and `SelectiveThemeManager._matches_pattern` (src/pawlette/core/selective_manager.py:214-243)

`fnmatch.fnmatch` on POSIX (`os.path.normcase` is the identity) compiles the
shell pattern and matches the whole name: `*` matches any run of characters
(including `/`), `?` any single character, `[...]` a character class (leading
`!` negates, a `]` directly after `[`/`[!` is literal, `a-b` is a range, an
unterminated `[` is a literal `[`).  The compilation below mirrors
`fnmatch.translate`; `tokMatch` is the backtracking matcher for the compiled
token list.
-/

inductive GlobTok where
  | star
  | anyChar
  | lit (c : Char)
  | cls (neg : Bool) (items : List (Char × Char))
deriving DecidableEq, Repr

/-- Scan for the closing `]` of a character class: returns the class body and
the remainder of the pattern. -/
def scanClose : Str → Option (Str × Str)
  | [] => none
  | c :: t =>
    if c = ']' then some ([], t)
    else
      match scanClose t with
      | none => none
      | some (content, rest) => some (c :: content, rest)

theorem scanClose_rest_lt :
    ∀ (s content rest : Str), scanClose s = some (content, rest) →
      rest.length < s.length := by
  intro s
  induction s with
  | nil => intro _ _ h; simp [scanClose] at h
  | cons c t ih =>
    intro content rest h
    by_cases hc : c = ']'
    · subst hc
      simp [scanClose] at h
      simp [h.2]
    · simp only [scanClose, if_neg hc] at h
      cases hrec : scanClose t with
      | none => rw [hrec] at h; simp at h
      | some pr =>
        obtain ⟨content', rest'⟩ := pr
        rw [hrec] at h
        simp only [Option.some.injEq, Prod.mk.injEq] at h
        have := ih content' rest' hrec
        rw [← h.2]
        simp
        omega

/-- Class body → list of `(lo, hi)` ranges (`a-b`) and singletons. -/
def classItems : Str → List (Char × Char)
  | a :: '-' :: b :: rest => (a, b) :: classItems rest
  | a :: rest => (a, a) :: classItems rest
  | [] => []

/-- Membership test for a compiled character class. -/
def inClass (neg : Bool) (items : List (Char × Char)) (c : Char) : Bool :=
  let hit := items.any fun ab => ab.1 ≤ c ∧ c ≤ ab.2
  if neg then !hit else hit

/-- A class pattern `[!...]` negates (`fnmatch.translate` turns the leading
`!` into `^`). -/
def clsNeg (ps : Str) : Bool := ps.head? = some '!'

def clsAfterNeg (ps : Str) : Str := if clsNeg ps then ps.tail else ps

/-- A `]` directly after `[` or `[!` is a literal member of the class. -/
def clsLitBr (ps : Str) : Bool := (clsAfterNeg ps).head? = some ']'

def clsBody (ps : Str) : Str :=
  if clsLitBr ps then (clsAfterNeg ps).tail else clsAfterNeg ps

/-- Parse a character class after an opening `[`: optional `!`, optional
literal `]`, body up to the closing `]`.  `none` when unterminated (then the
`[` is matched literally, as in `fnmatch.translate`). -/
def parseCls (ps : Str) : Option (Bool × List (Char × Char) × Str) :=
  match scanClose (clsBody ps) with
  | none => none
  | some (content, rest) =>
    some (clsNeg ps, classItems (if clsLitBr ps then ']' :: content else content),
      rest)

theorem clsBody_length_le (ps : Str) : (clsBody ps).length ≤ ps.length := by
  have htail : ∀ (l : Str), l.tail.length ≤ l.length := fun l => by
    cases l <;> simp
  unfold clsBody clsAfterNeg
  split
  · split
    · exact le_trans (htail _) (htail _)
    · exact htail _
  · split
    · exact htail _
    · exact le_refl _

theorem parseCls_rest_lt :
    ∀ (ps : Str) (neg : Bool) (items : List (Char × Char)) (rest : Str),
      parseCls ps = some (neg, items, rest) → rest.length < ps.length := by
  intro ps neg items rest h
  unfold parseCls at h
  cases hsc : scanClose (clsBody ps) with
  | none => rw [hsc] at h; simp at h
  | some pr =>
    obtain ⟨content, rest'⟩ := pr
    rw [hsc] at h
    simp only [Option.some.injEq, Prod.mk.injEq] at h
    have h1 := scanClose_rest_lt _ content rest' hsc
    have h2 := clsBody_length_le ps
    rw [← h.2.2]
    omega

/-- `fnmatch.translate`, compiled to a token list. -/
def translatePat (s : Str) : List GlobTok :=
  match s with
  | [] => []
  | c :: ps =>
    if c = '*' then .star :: translatePat ps
    else if c = '?' then .anyChar :: translatePat ps
    else if c = '[' then
      match hp : parseCls ps with
      | none => .lit '[' :: translatePat ps
      | some (neg, items, rest) => .cls neg items :: translatePat rest
    else .lit c :: translatePat ps
termination_by s.length
decreasing_by
  all_goals simp
  have := parseCls_rest_lt _ _ _ _ hp
  omega

/-- Backtracking matcher for the compiled pattern against a whole name
(`re.match(..., name)` with the `\Z`-anchored regex `translate` builds). -/
def tokMatch : List GlobTok → Str → Bool
  | [], n => n.isEmpty
  | .star :: ts, n =>
    tokMatch ts n ||
      (match n with
       | [] => false
       | _ :: nt => tokMatch (.star :: ts) nt)
  | .anyChar :: ts, n =>
    (match n with
     | [] => false
     | _ :: nt => tokMatch ts nt)
  | .lit c :: ts, n =>
    (match n with
     | [] => false
     | d :: nt => d = c && tokMatch ts nt)
  | .cls neg items :: ts, n =>
    (match n with
     | [] => false
     | d :: nt => inClass neg items d && tokMatch ts nt)
termination_by ts n => (ts.length, n.length)

/-- `fnmatch.fnmatch(name, pat)` on POSIX. -/
def pyFnmatch (name pat : Str) : Bool := tokMatch (translatePat pat) name

/-- Python `str.rstrip(chars)` for a single strip character. -/
def pyRStripChar (c : Char) (s : Str) : Str :=
  (s.reverse.dropWhile (· = c)).reverse

/-- `path.replace("\\", "/")` — the separator normalization on entry to
`_matches_pattern`. -/
def normSlashes (path : Str) : Str :=
  path.map fun c => if c = '\\' then '/' else c

/-- `clean_pattern.lstrip("*/")` — the suffix pattern for `**` patterns. -/
def dropStarSlash (s : Str) : Str :=
  s.dropWhile fun c => c = '*' || c = '/'

/-- `SelectiveThemeManager._matches_pattern`: normalize `\` to `/`; strip the
trailing-`/` directory marker; for `**` patterns strip the leading `*`/`/`
run and test every path component and every component-boundary suffix with
`fnmatch`; plain patterns go to `fnmatch` directly. -/
def matchesPattern (path pattern : Str) : Bool :=
  if containsSub (pyRStripChar '/' pattern) ("**".toList) then
    (List.range (splitOnSep '/' (normSlashes path)).length).any fun i =>
      pyFnmatch ((splitOnSep '/' (normSlashes path)).getD i [])
        (dropStarSlash (pyRStripChar '/' pattern)) ||
      pyFnmatch (joinComps '/' ((splitOnSep '/' (normSlashes path)).drop i))
        (dropStarSlash (pyRStripChar '/' pattern))
  else
    pyFnmatch (normSlashes path) (pyRStripChar '/' pattern)

end FnmatchModel

section IgnoreSet

/-- The IgnoreSet: `self.ignored_patterns` from
`SelectiveThemeManager._create_git_exclude_file`
(src/pawlette/core/selective_manager.py:60-184), in source order. -/
def ignoredPatterns : List String :=
  ["**/Cache/", "**/cache/", "**/Caches/", "**/caches/", "**/GPUCache/",
   "**/ShaderCache/", "**/DawnCache/", "**/DawnWebGPUCache/",
   "**/DawnGraphiteCache/", "**/CachedData/", "**/CachedExtensions/",
   "**/CachedImages/", "**/CachedResources/",
   "**/logs/", "**/log/", "**/Logs/", "**/Log/", "**/logging/", "**/Logging/",
   "**/tmp/", "**/temp/", "**/temporary/", "**/Tmp/", "**/Temp/",
   "**/Temporary/",
   "**/Local Storage/", "**/Session Storage/", "**/IndexedDB/",
   "**/databases/", "**/File System/", "**/Service Worker/",
   "**/blob_storage/", "**/WebStorage/", "**/Application Cache/",
   "**/Media Cache/", "**/Platform Notifications/", "**/shared_proto_db/",
   "**/optimization_guide_hint_cache_store/",
   "**/optimization_guide_prediction_model_downloads/", "**/GrShaderCache/",
   "mozilla/", ".mozilla/", "**/mozilla/", "**/.mozilla/",
   "**/globalStorage/", "**/workspaceStorage/", "**/sessionStorage/",
   "**/localStorage/", "**/sessionData/", "**/userData/",
   "*.log", "*.log.*", "*.logs", "*.out", "*.err",
   "*.db", "*.db-*", "*.sqlite", "*.sqlite3", "*.sqlite-*", "*.leveldb",
   "*.tmp", "*.temp", "*.bak", "*.backup", "*.old", "*.orig", "*.swp",
   "*.swo", "*.~*",
   "*.lock", "*.pid", "*.lck", "*.lockfile",
   "*Cookies*", "*cookies*", "*cookie*", "*Cookie*", "*Session*",
   "*session*", "*History*", "*history*",
   "*TransportSecurity*", "*QuotaManager*", "*Favicons*", "*Thumbnails*",
   "*thumbnails*", "*Trash*", "*trash*",
   ".DS_Store", ".DS_Store?", "._*", ".Spotlight-V100", ".Trashes",
   "ehthumbs.db", "Thumbs.db",
   "*recently-used*", "*Recently-used*", "*.recently-used*",
   "*.Recently-used*",
   "*~", "*.bak", "*.backup", "*.old", "*.orig", "*.save", "*.autosave"]

end IgnoreSet

section IgnoreSemantics

/-!
## C7: gitignore-style `**` semantics of `_matches_pattern`

The claim concerns IgnoreSet patterns of the shape `**/X/`.  Every such
pattern in the list has a literal single-component `X` (no wildcard
characters and no `/`), which the decidable check
`ignored_starstar_literal` certifies.
-/

/-- Decompose a pattern of the shape `**/X/` into `X`. -/
def starStarDirX (pat : Str) : Option Str :=
  match pat with
  | '*' :: '*' :: '/' :: rest =>
    if rest.getLast? = some '/' then some rest.dropLast else none
  | _ => none

/-- `X` is a nonempty literal path component: no glob metacharacters, no
separator. -/
def xLiteral (X : Str) : Bool :=
  !X.isEmpty && X.all fun c => !(c = '*' || c = '?' || c = '[' || c = '/')

theorem starStarDirX_eq (X : Str) :
    starStarDirX (['*', '*', '/'] ++ X ++ ['/']) = some X := by
  show starStarDirX ('*' :: '*' :: '/' :: (X ++ ['/'])) = some X
  rw [starStarDirX]
  simp

/-- Every `**/…/` pattern of the IgnoreSet has a literal component `X`. -/
theorem ignored_starstar_literal :
    (ignoredPatterns.all fun p =>
      match starStarDirX p.toList with
      | some X => xLiteral X
      | none => true) = true := by decide

/-- The claim's reading of gitignore `**` semantics for `**/X/`: some path
component of `p` matches `X`, or some suffix of `p` starting at a component
boundary matches `X` (the part of the pattern after `**/`). -/
def gitignoreStarStarMatch (p X : Str) : Prop :=
  ∃ i < (splitOnSep '/' p).length,
    ((splitOnSep '/' p).getD i [] = X ∨
     joinComps '/' ((splitOnSep '/' p).drop i) = X)

theorem translatePat_literal (X : Str)
    (h : ∀ c ∈ X, ¬(c = '*' ∨ c = '?' ∨ c = '[')) :
    translatePat X = X.map GlobTok.lit := by
  induction X with
  | nil => simp [translatePat]
  | cons c t ih =>
    have hc := h c (by simp)
    push_neg at hc
    rw [translatePat]
    simp only [hc.1, hc.2.1, hc.2.2, if_false, List.map_cons]
    rw [ih fun d hd => h d (by simp [hd])]

theorem tokMatch_lits (X : Str) :
    ∀ s : Str, tokMatch (X.map GlobTok.lit) s = true ↔ s = X := by
  induction X with
  | nil =>
    intro s; cases s <;> simp [tokMatch]
  | cons c t ih =>
    intro s
    cases s with
    | nil => simp [tokMatch]
    | cons d ns =>
      rw [List.map_cons, tokMatch]
      simp [ih, List.cons_eq_cons]

theorem pyFnmatch_literal (X : Str)
    (h : ∀ c ∈ X, ¬(c = '*' ∨ c = '?' ∨ c = '[')) (s : Str) :
    pyFnmatch s X = true ↔ s = X := by
  rw [pyFnmatch, translatePat_literal X h, tokMatch_lits]

theorem normSlashes_eq_self (p : Str) (hp : '\\' ∉ p) : normSlashes p = p := by
  induction p with
  | nil => rfl
  | cons c t ih =>
    simp only [List.mem_cons, not_or] at hp
    simp only [normSlashes, List.map_cons] at *
    rw [if_neg (fun h => hp.1 h.symm), ih hp.2]

theorem pyRStripChar_starstar (X : Str) (hne : X ≠ [])
    (hlast : X.getLast? ≠ some '/') :
    pyRStripChar '/' (['*', '*', '/'] ++ X ++ ['/']) = ['*', '*', '/'] ++ X := by
  unfold pyRStripChar
  have h1 : (['*', '*', '/'] ++ X ++ ['/']).reverse
      = '/' :: (X.reverse ++ ['/', '*', '*']) := by simp
  rw [h1, List.dropWhile_cons, if_pos (by simp)]
  obtain ⟨a, t, hrev⟩ : ∃ a t, X.reverse = a :: t := by
    cases hx : X.reverse with
    | nil => exact absurd (by simpa using congrArg List.reverse hx) hne
    | cons a t => exact ⟨a, t, rfl⟩
  have ha : ¬a = '/' := by
    intro hav
    apply hlast
    rw [← List.head?_reverse, hrev]
    simp [hav]
  rw [hrev, List.cons_append, List.dropWhile_cons, if_neg (by simp [ha])]
  have h2 : (a :: (t ++ ['/', '*', '*'])) = (a :: t) ++ ['/', '*', '*'] := by simp
  rw [h2, List.reverse_append, show (a :: t).reverse = X by rw [← hrev]; simp]
  simp

theorem dropStarSlash_starstar (X : Str) (hne : X ≠ [])
    (hhead : ∀ c ∈ X, ¬(c = '*' ∨ c = '/')) :
    dropStarSlash (['*', '*', '/'] ++ X) = X := by
  unfold dropStarSlash
  rw [show (['*', '*', '/'] ++ X) = '*' :: '*' :: '/' :: X by simp]
  rw [List.dropWhile_cons_of_pos (by simp), List.dropWhile_cons_of_pos (by simp),
    List.dropWhile_cons_of_pos (by simp)]
  cases X with
  | nil => simp at hne
  | cons c t =>
    have hc := hhead c (by simp)
    push_neg at hc
    rw [List.dropWhile_cons_of_neg (by simp [hc.1, hc.2])]

theorem containsSub_starstar (X : Str) :
    containsSub (['*', '*', '/'] ++ X) ("**".toList) = true := by
  rw [show (['*', '*', '/'] ++ X) = '*' :: ('*' :: '/' :: X) by simp]
  rw [containsSub]
  have h : ("**".toList).isPrefixOf ('*' :: '*' :: '/' :: X) = true := by
    rw [show "**".toList = ['*', '*'] from rfl]
    simp [List.isPrefixOf]
  rw [h]
  simp

/-- Core equivalence: for a literal component `X`, `_matches_pattern p (**/X/)`
holds exactly when some component of `p` equals `X` or some component-boundary
suffix of `p` equals `X`. -/
theorem matchesPattern_starstar_dir (X : Str) (hX : xLiteral X = true) (p : Str)
    (hp : '\\' ∉ p) :
    matchesPattern p (['*', '*', '/'] ++ X ++ ['/']) = true ↔
      gitignoreStarStarMatch p X := by
  have hX' := hX
  simp only [xLiteral, Bool.and_eq_true, List.all_eq_true] at hX'
  obtain ⟨hne', hall⟩ := hX'
  have hchars : ∀ c ∈ X, ¬c = '*' ∧ ¬c = '?' ∧ ¬c = '[' ∧ ¬c = '/' := by
    intro c hc
    have h1 := hall c hc
    simp at h1
    tauto
  have hne : X ≠ [] := by
    intro hXe
    rw [hXe] at hne'
    simp at hne'
  have hlast : X.getLast? ≠ some '/' := by
    intro hl
    have hmem := List.mem_of_mem_getLast?
      (show '/' ∈ X.getLast? by rw [hl]; exact rfl)
    exact (hchars '/' hmem).2.2.2 rfl
  have hrs := pyRStripChar_starstar X hne hlast
  have hlit : ∀ c ∈ X, ¬(c = '*' ∨ c = '?' ∨ c = '[') := by
    intro c hc h
    have := hchars c hc
    tauto
  unfold matchesPattern
  rw [hrs, containsSub_starstar, if_pos rfl,
    dropStarSlash_starstar X hne
      (by intro c hc h; have := hchars c hc; tauto),
    normSlashes_eq_self p hp]
  rw [List.any_eq_true]
  unfold gitignoreStarStarMatch
  constructor
  · rintro ⟨i, hi, hmatch⟩
    rw [List.mem_range] at hi
    rw [Bool.or_eq_true, pyFnmatch_literal X hlit, pyFnmatch_literal X hlit]
      at hmatch
    exact ⟨i, hi, hmatch⟩
  · rintro ⟨i, hi, hmatch⟩
    refine ⟨i, List.mem_range.mpr hi, ?_⟩
    rw [Bool.or_eq_true, pyFnmatch_literal X hlit, pyFnmatch_literal X hlit]
    exact hmatch

end IgnoreSemantics

/-- **C7.**  For every relative path `p` (no literal backslash, which the code
would rewrite to `/`) and every IgnoreSet pattern of the form `**/X/`,
`_matches_pattern` returns true iff some path component of `p` matches `X` or
some component-boundary suffix of `p` matches the part of the pattern after
`**/` — gitignore-style `**` semantics. -/
theorem C7_matches_pattern_starstar (p : Str) (pat : String) (X : Str)
    (hmem : pat ∈ ignoredPatterns)
    (hform : pat.toList = "**/".toList ++ X ++ "/".toList)
    (hp : '\\' ∉ p) :
    matchesPattern p pat.toList = true ↔ gitignoreStarStarMatch p X := by
  have hXlit : xLiteral X = true := by
    have hall := List.all_eq_true.mp ignored_starstar_literal pat hmem
    rw [hform] at hall
    rw [show "**/".toList = ['*', '*', '/'] from rfl,
      show "/".toList = ['/'] from rfl] at hall
    rw [starStarDirX_eq] at hall
    exact hall
  rw [hform]
  rw [show "**/".toList = ['*', '*', '/'] from rfl,
    show "/".toList = ['/'] from rfl]
  exact matchesPattern_starstar_dir X hXlit p hp

/-- Witness for `C7_matches_pattern_starstar`: the pattern `**/Cache/` matches
`a/Cache/b` because its second component is `Cache`. -/
theorem C7_matches_pattern_starstar_witness :
    matchesPattern ("a/Cache/b".toList) ("**/Cache/".toList) = true :=
  (C7_matches_pattern_starstar ("a/Cache/b".toList) "**/Cache/"
      ("Cache".toList) (by decide) (by decide) (by decide)).mpr
    ⟨1, by decide, Or.inl (by decide)⟩

section VersionExtraction

/-!
## `Installer._extract_version_from_filename` (src/pawlette/core/installer.py:146-150)

```
matches = re.findall(r"v(\d+(?:\.\d+)*)(?:[-_.]|$)", filename)
return matches[-1] if matches else "1.0"
```

`vmatch` matches the part after a `v`: a greedy `\d+(\.\d+)*` digit body
followed by the delimiter class `[-_.]` or end of input, with the regex's
backtracking (declining the last `.digits` group always succeeds because the
`.` itself is in the delimiter class).  It returns the captured digits and
the残 input after the whole match (the consumed delimiter included).
`findallLastVersion` is `re.findall`'s non-overlapping left-to-right scan,
keeping the last match.
-/

def isAsciiDigit (c : Char) : Bool := '0' ≤ c && c ≤ '9'

def isVerDelim (c : Char) : Bool := c = '-' || c = '_' || c = '.'

theorem dropWhile_length_lt (p : Char → Bool) (l : Str)
    (h : l.takeWhile p ≠ []) : (l.dropWhile p).length < l.length := by
  have h1 := congrArg List.length (List.takeWhile_append_dropWhile p l)
  simp only [List.length_append] at h1
  have h3 : 0 < (l.takeWhile p).length := by
    cases hr : l.takeWhile p with
    | nil => exact absurd hr h
    | cons a t => simp
  omega

/-- Greedy `(\.\d+)*(?:[-_.]|$)` continuation: `acc` is the digit body matched
so far; returns `(captured digits, remaining input)` or `none` when no
terminator can be reached from this position.  A `.` followed by digits is
first extended greedily; if that path reaches no terminator, the regex
backtracks and the `.` itself serves as the `[-_.]` delimiter. -/
def vmatchGroups (acc : Str) : Str → Option (Str × Str)
  | [] => some (acc, [])
  | c :: r =>
    if c = '.' then
      if (r.takeWhile isAsciiDigit) = [] then
        some (acc, r)
      else
        match vmatchGroups (acc ++ '.' :: r.takeWhile isAsciiDigit)
            (r.dropWhile isAsciiDigit) with
        | some res => some res
        | none => some (acc, r)
    else if isVerDelim c then some (acc, r) else none
termination_by rest => rest.length
decreasing_by
  simp only [List.length_cons]
  refine Nat.lt_succ_of_lt (dropWhile_length_lt _ _ ?_)
  assumption

theorem vmatchGroups_nil (acc : Str) : vmatchGroups acc [] = some (acc, []) := by
  rw [vmatchGroups.eq_def]

theorem vmatchGroups_cons (acc : Str) (c : Char) (r : Str) :
    vmatchGroups acc (c :: r) =
      (if c = '.' then
        if (r.takeWhile isAsciiDigit) = [] then some (acc, r)
        else
          match vmatchGroups (acc ++ '.' :: r.takeWhile isAsciiDigit)
              (r.dropWhile isAsciiDigit) with
          | some res => some res
          | none => some (acc, r)
      else if isVerDelim c then some (acc, r) else none) := by
  rw [vmatchGroups.eq_def]

/-- The `v(\d+(?:\.\d+)*)(?:[-_.]|$)` match attempt on the input following a
`v`: at least one digit, then the greedy group continuation. -/
def vmatch (s : Str) : Option (Str × Str) :=
  if s.takeWhile isAsciiDigit = [] then none
  else vmatchGroups (s.takeWhile isAsciiDigit) (s.dropWhile isAsciiDigit)

theorem takeWhile_dropWhile_length (p : Char → Bool) (l : Str) :
    (l.takeWhile p).length + (l.dropWhile p).length = l.length := by
  have := congrArg List.length (List.takeWhile_append_dropWhile p l)
  simp only [List.length_append] at this
  exact this

theorem vmatchGroups_rest_le_aux (n : Nat) :
    ∀ (rest : Str), rest.length ≤ n → ∀ acc v r,
      vmatchGroups acc rest = some (v, r) → r.length ≤ rest.length := by
  induction n with
  | zero =>
    intro rest hle acc v r h
    have hrest : rest = [] := List.eq_nil_of_length_eq_zero (by omega)
    subst hrest
    rw [vmatchGroups_nil] at h
    simp only [Option.some.injEq, Prod.mk.injEq] at h
    rw [← h.2]
  | succ n ih =>
    intro rest hle acc v r h
    cases rest with
    | nil =>
      rw [vmatchGroups_nil] at h
      simp only [Option.some.injEq, Prod.mk.injEq] at h
      rw [← h.2]
    | cons c r' =>
      rw [vmatchGroups_cons] at h
      by_cases hc : c = '.'
      · rw [if_pos hc] at h
        by_cases hd : (r'.takeWhile isAsciiDigit) = []
        · rw [if_pos hd] at h
          simp only [Option.some.injEq, Prod.mk.injEq] at h
          rw [← h.2]
          simp
        · rw [if_neg hd] at h
          have hlen := takeWhile_dropWhile_length isAsciiDigit r'
          have hdle : (r'.dropWhile isAsciiDigit).length ≤ n := by
            have := dropWhile_length_lt isAsciiDigit r' hd
            simp only [List.length_cons] at hle
            omega
          cases hrec : vmatchGroups (acc ++ '.' :: r'.takeWhile isAsciiDigit)
              (r'.dropWhile isAsciiDigit) with
          | some res =>
            rw [hrec] at h
            simp only [Option.some.injEq] at h
            obtain ⟨v', r''⟩ := res
            have hih := ih _ hdle _ v' r'' hrec
            have hr : r'' = r := congrArg Prod.snd h
            rw [← hr]
            simp only [List.length_cons]
            omega
          | none =>
            rw [hrec] at h
            simp only [Option.some.injEq, Prod.mk.injEq] at h
            rw [← h.2]
            simp
      · rw [if_neg hc] at h
        by_cases hdel : isVerDelim c = true
        · rw [if_pos hdel] at h
          simp only [Option.some.injEq, Prod.mk.injEq] at h
          rw [← h.2]
          simp
        · rw [if_neg hdel] at h
          simp at h

theorem vmatchGroups_rest_le (acc rest v r : Str)
    (h : vmatchGroups acc rest = some (v, r)) : r.length ≤ rest.length :=
  vmatchGroups_rest_le_aux rest.length rest (le_refl _) acc v r h

theorem vmatch_rest_lt (s v r : Str) (h : vmatch s = some (v, r)) :
    r.length < s.length := by
  unfold vmatch at h
  split at h
  · simp at h
  · rename_i hne
    have h1 := vmatchGroups_rest_le _ _ _ _ h
    have hlen := takeWhile_dropWhile_length isAsciiDigit s
    have h3 : 0 < (s.takeWhile isAsciiDigit).length := by
      cases hr : s.takeWhile isAsciiDigit with
      | nil => exact absurd hr hne
      | cons a t => simp
    omega

/-- `re.findall(...)` keeping only the last captured group: scan left to
right; at each `v` attempt `vmatch`; on success continue after the consumed
match, otherwise advance one character. -/
def findallLastVersion : Str → Option Str
  | [] => none
  | c :: t =>
    if c = 'v' then
      match hm : vmatch t with
      | some (ver, rest) =>
        match findallLastVersion rest with
        | some w => some w
        | none => some ver
      | none => findallLastVersion t
    else findallLastVersion t
termination_by s => s.length
decreasing_by
  · have := vmatch_rest_lt _ _ _ hm
    simp
    omega
  · simp
  · simp

/-- `Installer._extract_version_from_filename`. -/
def extractVersionFromFilename (filename : Str) : Str :=
  match findallLastVersion filename with
  | some v => v
  | none => "1.0".toList

/-- The claim's notion of a version token: at some position of the filename a
`v` is followed by digits (dot-separated digit groups) delimited by `-`, `_`,
`.`, or the end of the string.  The token's digits are the longest digit body
at that position that reaches a delimiter — exactly what the greedy regex
body captures. -/
def hasVersionTokenAt (s : Str) (i : Nat) : Prop :=
  (s.drop i).head? = some 'v' ∧ vmatch (s.drop i).tail ≠ none

def hasVersionToken (s : Str) : Prop := ∃ i, hasVersionTokenAt s i

instance (s : Str) (i : Nat) : Decidable (hasVersionTokenAt s i) := by
  unfold hasVersionTokenAt; infer_instance

/-- The *last* version token of the filename, by the claim's reading: prefer
tokens starting at later positions. -/
def lastVersionToken : Str → Option Str
  | [] => none
  | c :: t =>
    match lastVersionToken t with
    | some w => some w
    | none =>
      if c = 'v' then (vmatch t).map Prod.fst else none

end VersionExtraction

section VersionEquivalence

theorem findallLastVersion_nil : findallLastVersion [] = none := by
  rw [findallLastVersion.eq_def]

theorem findallLastVersion_cons (c : Char) (t : Str) :
    findallLastVersion (c :: t) =
      (if c = 'v' then
        match hm : vmatch t with
        | some (ver, rest) =>
          (match findallLastVersion rest with
           | some w => some w
           | none => some ver)
        | none => findallLastVersion t
      else findallLastVersion t) := by
  rw [findallLastVersion.eq_def]

theorem findallLastVersion_cons_some (c : Char) (t ver rest : Str)
    (h : vmatch t = some (ver, rest)) (hc : c = 'v') :
    findallLastVersion (c :: t) =
      (match findallLastVersion rest with
       | some w => some w
       | none => some ver) := by
  rw [findallLastVersion_cons, if_pos hc]
  split
  · rename_i ver' rest' heq
    rw [h] at heq
    simp at heq
    rw [heq.1, heq.2]
  · rename_i heq
    rw [h] at heq
    simp at heq

theorem findallLastVersion_cons_none (c : Char) (t : Str)
    (h : vmatch t = none) :
    findallLastVersion (c :: t) = findallLastVersion t := by
  rw [findallLastVersion_cons]
  by_cases hc : c = 'v'
  · rw [if_pos hc]
    split
    · rename_i ver' rest' heq
      rw [h] at heq
      simp at heq
    · rfl
  · rw [if_neg hc]

theorem lastVersionToken_nil : lastVersionToken [] = none := rfl

theorem lastVersionToken_cons (c : Char) (t : Str) :
    lastVersionToken (c :: t) =
      (match lastVersionToken t with
       | some w => some w
       | none => if c = 'v' then (vmatch t).map Prod.fst else none) := rfl

/-- Characters consumed by a successful `vmatchGroups` run are digits, dots,
or delimiters — never `v`, so `re.findall`'s non-overlapping scan skips no
candidate match start. -/
theorem vmatchGroups_split_aux (n : Nat) :
    ∀ (rest : Str), rest.length ≤ n → ∀ acc v r,
      vmatchGroups acc rest = some (v, r) →
        ∃ pre, rest = pre ++ r ∧ ∀ x ∈ pre, x ≠ 'v' := by
  induction n with
  | zero =>
    intro rest hle acc v r h
    have hrest : rest = [] := List.eq_nil_of_length_eq_zero (by omega)
    subst hrest
    rw [vmatchGroups_nil] at h
    simp only [Option.some.injEq, Prod.mk.injEq] at h
    exact ⟨[], by simp [← h.2], by simp⟩
  | succ n ih =>
    intro rest hle acc v r h
    cases rest with
    | nil =>
      rw [vmatchGroups_nil] at h
      simp only [Option.some.injEq, Prod.mk.injEq] at h
      exact ⟨[], by simp [← h.2], by simp⟩
    | cons c r' =>
      rw [vmatchGroups_cons] at h
      by_cases hc : c = '.'
      · rw [if_pos hc] at h
        by_cases hd : (r'.takeWhile isAsciiDigit) = []
        · rw [if_pos hd] at h
          simp only [Option.some.injEq, Prod.mk.injEq] at h
          refine ⟨[c], by simp [← h.2], ?_⟩
          intro x hx
          simp at hx
          rw [hx, hc]
          decide
        · rw [if_neg hd] at h
          have hdle : (r'.dropWhile isAsciiDigit).length ≤ n := by
            have := dropWhile_length_lt isAsciiDigit r' hd
            simp only [List.length_cons] at hle
            omega
          cases hrec : vmatchGroups (acc ++ '.' :: r'.takeWhile isAsciiDigit)
              (r'.dropWhile isAsciiDigit) with
          | some res =>
            rw [hrec] at h
            simp only [Option.some.injEq] at h
            obtain ⟨v', r''⟩ := res
            obtain ⟨pre', hsplit, hfree⟩ := ih _ hdle _ v' r'' hrec
            have hr : r'' = r := congrArg Prod.snd h
            refine ⟨c :: (r'.takeWhile isAsciiDigit ++ pre'), ?_, ?_⟩
            · rw [← hr]
              have : r' = r'.takeWhile isAsciiDigit ++ r'.dropWhile isAsciiDigit :=
                (List.takeWhile_append_dropWhile isAsciiDigit r').symm
              conv_lhs => rw [this, hsplit]
              simp
            · intro x hx
              simp only [List.mem_cons, List.mem_append] at hx
              rcases hx with hx | hx | hx
              · rw [hx, hc]; decide
              · have := List.mem_takeWhile_imp hx
                intro hv
                rw [hv] at this
                simp [isAsciiDigit] at this
              · exact hfree x hx
          | none =>
            rw [hrec] at h
            simp only [Option.some.injEq, Prod.mk.injEq] at h
            refine ⟨[c], by simp [← h.2], ?_⟩
            intro x hx
            simp at hx
            rw [hx, hc]
            decide
      · rw [if_neg hc] at h
        by_cases hdel : isVerDelim c = true
        · rw [if_pos hdel] at h
          simp only [Option.some.injEq, Prod.mk.injEq] at h
          refine ⟨[c], by simp [← h.2], ?_⟩
          intro x hx
          simp at hx
          subst hx
          intro hv
          rw [hv] at hdel
          simp [isVerDelim] at hdel
        · rw [if_neg hdel] at h
          simp at h

theorem vmatch_split (t ver rest : Str) (h : vmatch t = some (ver, rest)) :
    ∃ pre, t = pre ++ rest ∧ ∀ x ∈ pre, x ≠ 'v' := by
  unfold vmatch at h
  split at h
  · simp at h
  · rename_i hne
    obtain ⟨pre', hsplit, hfree⟩ :=
      vmatchGroups_split_aux (t.dropWhile isAsciiDigit).length
        (t.dropWhile isAsciiDigit) (le_refl _) _ ver rest h
    refine ⟨t.takeWhile isAsciiDigit ++ pre', ?_, ?_⟩
    · conv_lhs => rw [(List.takeWhile_append_dropWhile isAsciiDigit t).symm]
      rw [hsplit]
      simp
    · intro x hx
      simp only [List.mem_append] at hx
      rcases hx with hx | hx
      · have := List.mem_takeWhile_imp hx
        intro hv
        rw [hv] at this
        simp [isAsciiDigit] at this
      · exact hfree x hx

end VersionEquivalence

section VersionMain

theorem lastVersionToken_skip (pre rest : Str) (hfree : ∀ x ∈ pre, x ≠ 'v') :
    lastVersionToken (pre ++ rest) = lastVersionToken rest := by
  induction pre with
  | nil => simp
  | cons c p ih =>
    have hc : c ≠ 'v' := hfree c (by simp)
    rw [List.cons_append, lastVersionToken_cons,
      ih (fun x hx => hfree x (by simp [hx]))]
    cases lastVersionToken rest with
    | some w => rfl
    | none => simp [hc]

theorem findall_eq_lastToken_aux (n : Nat) :
    ∀ s : Str, s.length ≤ n → findallLastVersion s = lastVersionToken s := by
  induction n with
  | zero =>
    intro s hle
    have hs : s = [] := List.eq_nil_of_length_eq_zero (by omega)
    subst hs
    rw [findallLastVersion_nil, lastVersionToken_nil]
  | succ n ih =>
    intro s hle
    cases s with
    | nil => rw [findallLastVersion_nil, lastVersionToken_nil]
    | cons c t =>
      have hlt : t.length ≤ n := by simp only [List.length_cons] at hle; omega
      by_cases hc : c = 'v'
      · cases hm : vmatch t with
        | none =>
          rw [findallLastVersion_cons_none c t hm, lastVersionToken_cons,
            ih t hlt, hm]
          cases lastVersionToken t with
          | some w => rfl
          | none => simp
        | some pr =>
          obtain ⟨ver, rest⟩ := pr
          obtain ⟨pre, hsplit, hfree⟩ := vmatch_split t ver rest hm
          have hrl := vmatch_rest_lt t ver rest hm
          rw [findallLastVersion_cons_some c t ver rest hm hc,
            lastVersionToken_cons, ih rest (by omega),
            show lastVersionToken t = lastVersionToken rest from by
              rw [hsplit]; exact lastVersionToken_skip pre rest hfree,
            hm]
          cases lastVersionToken rest with
          | some w => rfl
          | none => simp [hc]
      · rw [show findallLastVersion (c :: t) = findallLastVersion t from by
            rw [findallLastVersion_cons, if_neg hc],
          lastVersionToken_cons, ih t hlt]
        cases lastVersionToken t with
        | some w => rfl
        | none => simp [hc]

/-- `re.findall`'s last match coincides with the position-wise last version
token of the filename: a consumed match contains no `v`, so the
non-overlapping scan skips no later token start. -/
theorem findall_eq_lastToken (s : Str) :
    findallLastVersion s = lastVersionToken s :=
  findall_eq_lastToken_aux s.length s (le_refl _)

theorem hasVersionToken_nil : ¬ hasVersionToken [] := by
  rintro ⟨i, h, _⟩
  simp [hasVersionTokenAt] at h

theorem hasVersionToken_cons (c : Char) (t : Str) :
    hasVersionToken (c :: t) ↔
      ((c = 'v' ∧ vmatch t ≠ none) ∨ hasVersionToken t) := by
  constructor
  · rintro ⟨i, h1, h2⟩
    cases i with
    | zero =>
      left
      refine ⟨by simpa using h1, by simpa using h2⟩
    | succ j =>
      right
      exact ⟨j, by simpa [List.drop_succ_cons] using h1,
        by simpa [List.drop_succ_cons] using h2⟩
  · rintro (⟨hc, hv⟩ | ⟨j, h1, h2⟩)
    · exact ⟨0, by simpa using hc, by simpa using hv⟩
    · exact ⟨j + 1, by simpa [List.drop_succ_cons] using h1,
        by simpa [List.drop_succ_cons] using h2⟩

theorem lastVersionToken_none_iff (s : Str) :
    lastVersionToken s = none ↔ ¬ hasVersionToken s := by
  induction s with
  | nil =>
    constructor
    · intro _; exact hasVersionToken_nil
    · intro _; rw [lastVersionToken_nil]
  | cons c t ih =>
    rw [lastVersionToken_cons, hasVersionToken_cons]
    cases hl : lastVersionToken t with
    | some w =>
      have hhast : hasVersionToken t := by
        by_contra hnot
        have hnone := ih.mpr hnot
        rw [hnone] at hl
        exact Option.noConfusion hl
      simp [hhast]
    | none =>
      have hnt : ¬ hasVersionToken t := ih.mp hl
      by_cases hc : c = 'v'
      · rw [if_pos hc]
        cases hv : vmatch t with
        | none => simp [hc, hv, hnt]
        | some pr => simp [hc, hv, hnt]
      · rw [if_neg hc]
        simp [hc, hnt]

/-- `theme_url.split("/")[-1]` — the archive filename part of a URL. -/
def lastSegment (url : Str) : Str := (splitOnSep '/' url).getLastD []

/-- The version recorded in the installed-themes manifest by
`_install_theme_from_url` (src/pawlette/core/installer.py:489-493):
`theme_version = self._extract_version_from_filename(theme_url.split("/")[-1])`,
stored unchanged by `_install_theme_from_archive_file` since it is not
`None`. -/
def installFromUrlVersion (url : Str) : Str :=
  extractVersionFromFilename (lastSegment url)

end VersionMain

/-- **C10.**  `_extract_version_from_filename` returns the digits of the last
version token — `v` followed by dot-separated digit groups delimited by `-`,
`_`, `.`, or the end of the string — and the default `1.0` when the filename
contains no such token; the version recorded in the manifest when installing
from a URL whose archive name carries no parseable version is `1.0`. -/
theorem C10_extract_version (f url : Str)
    (hurl : ¬ hasVersionToken (lastSegment url)) :
    (extractVersionFromFilename f =
      (match lastVersionToken f with
       | some d => d
       | none => "1.0".toList)) ∧
    (¬ hasVersionToken f → extractVersionFromFilename f = "1.0".toList) ∧
    installFromUrlVersion url = "1.0".toList := by
  have hmain : ∀ g : Str, extractVersionFromFilename g =
      (match lastVersionToken g with
       | some d => d
       | none => "1.0".toList) := by
    intro g
    rw [extractVersionFromFilename, findall_eq_lastToken]
  refine ⟨hmain f, ?_, ?_⟩
  · intro hno
    rw [hmain f, (lastVersionToken_none_iff f).mpr hno]
  · rw [installFromUrlVersion, hmain, (lastVersionToken_none_iff _).mpr hurl]

/-- Witness for `C10_extract_version`: a token-free filename yields `1.0`, and
a URL whose archive name carries no version records `1.0`. -/
theorem C10_extract_version_witness :
    extractVersionFromFilename ("theme.tar.gz".toList) = "1.0".toList ∧
    installFromUrlVersion
      ("https://example.com/downloads/theme.tar.gz".toList) = "1.0".toList := by
  have h := C10_extract_version ("theme.tar.gz".toList)
    ("https://example.com/downloads/theme.tar.gz".toList)
    ((lastVersionToken_none_iff _).mp (by decide))
  exact ⟨h.2.1 ((lastVersionToken_none_iff _).mp (by decide)), h.2.2⟩

section StateEngine

/-!
## `SelectiveThemeManager` state engine (src/pawlette/core/selective_manager.py)

`apply_theme` (lines 514-606) is modeled as a transition function over an
abstract repository state together with a trace of effects.  Git commands are
interpreted on the state: `commit` prepends a subject to the current branch's
history when the work tree is dirty (a commit with a clean tree fails and
changes nothing), `checkout` moves `current`, `checkout -b X main` creates a
branch with `main`'s history, `branch -m` renames (HEAD follows when the
renamed branch is checked out), `branch -D` deletes unless the branch is
checked out.  The merge-copy engine's overlay of theme files onto the work
tree is modeled as marking the work tree dirty plus `copyThemeFiles` in the
trace; timestamps are passed in as parameters.
-/

structure RepoState where
  branches : List (Str × List Str)
  current : Str
  dirty : Bool
  versionFiles : List (Str × Str)
  manifest : Option (List (Str × Str))
  themesOnDisk : List Str
deriving DecidableEq, Repr

inductive GitEffect where
  | commit (subject : Str)
  | checkout (branch : Str)
  | createBranch (branch base : Str)
  | renameBranch (oldName newName : Str)
  | cleanPatches
  | copyThemeFiles
  | writeVersionFile (name version : Str)
  | reloadCommands
deriving DecidableEq, Repr

def lookupA {α : Type} (l : List (Str × α)) (k : Str) : Option α :=
  match l.find? fun p => decide (p.1 = k) with
  | some p => some p.2
  | none => none

def updateA {α : Type} (l : List (Str × α)) (k : Str) (v : α) : List (Str × α) :=
  if (l.find? fun p => decide (p.1 = k)).isSome then
    l.map fun p => if p.1 = k then (k, v) else p
  else l ++ [(k, v)]

def renameA {α : Type} (l : List (Str × α)) (o n : Str) : List (Str × α) :=
  l.map fun p => if p.1 = o then (n, p.2) else p

def commitsOf (st : RepoState) (b : Str) : List Str :=
  (lookupA st.branches b).getD []

def branchExists (st : RepoState) (b : Str) : Bool :=
  (lookupA st.branches b).isSome

def branchNames (st : RepoState) : List Str := st.branches.map Prod.fst

def userCommitMsg (ts : Str) : Str :=
  "[USER] Save user customizations - ".toList ++ ts

def applyCommitMsg (name ver : Str) : Str :=
  "Apply theme: ".toList ++ name ++ " v".toList ++ ver

/-- The `--grep` needle of `_has_theme_commit_in_branch` (lines 661-682):
`git log --grep` matches the needle as a substring anywhere in the subject. -/
def applyGrep (name : Str) : Str := "Apply theme: ".toList ++ name

/-- `git commit -m msg`: records a commit on the current branch when there is
anything to commit, otherwise fails and changes nothing. -/
def gitCommit (st : RepoState) (msg : Str) : RepoState × List GitEffect :=
  if st.dirty then
    ({ st with
        branches := updateA st.branches st.current (msg :: commitsOf st st.current),
        dirty := false },
      [.commit msg])
  else (st, [])

/-- `_handle_uncommitted_changes` (lines 322-336): commit pending work-tree
changes with a `[USER]` subject. -/
def handleUncommitted (st : RepoState) (ts : Str) : RepoState × List GitEffect :=
  if st.dirty then gitCommit st (userCommitMsg ts) else (st, [])

/-- `_create_or_switch_branch` (lines 275-320): commit pending changes, then
`checkout` an existing branch (retrying with `--force` on conflicts, which
this abstraction folds into a successful checkout) or `checkout -b <name>
main`. -/
def createOrSwitchBranch (st : RepoState) (name ts : Str) :
    RepoState × List GitEffect :=
  let pr := handleUncommitted st ts
  if branchExists pr.1 name then
    ({ pr.1 with current := name }, pr.2 ++ [.checkout name])
  else
    ({ pr.1 with
        branches := pr.1.branches ++ [(name, commitsOf pr.1 ("main".toList))],
        current := name },
      pr.2 ++ [.createBranch name ("main".toList)])

/-- `_has_theme_commit_in_branch`: `git log --grep "Apply theme: <name>" -1`
on the current branch. -/
def hasThemeCommit (st : RepoState) (name : Str) : Bool :=
  (commitsOf st st.current).any fun c => containsSub c (applyGrep name)

/-- `_get_saved_theme_version_in_branch` (lines 720-725): the side-channel
`<name>.version` file, `"unknown"` when absent. -/
def savedThemeVersion (st : RepoState) (name : Str) : Str :=
  (lookupA st.versionFiles name).getD ("unknown".toList)

/-- `_get_theme_version_from_installed` (lines 727-755): the manifest version
under the exact name or the `catppuccin-` prefixed name, `"unknown"` when the
manifest file or the record is absent. -/
def manifestThemeVersion (st : RepoState) (name : Str) : Str :=
  match st.manifest with
  | none => "unknown".toList
  | some m =>
    match lookupA m name with
    | some v => v
    | none =>
      match lookupA m ("catppuccin-".toList ++ name) with
      | some v => v
      | none => "unknown".toList

def backupBranchName (name ver ts : Str) : Str :=
  name ++ "-v".toList ++ ver ++ "-backup-".toList ++ ts

/-- `_backup_and_recreate_branch` (lines 684-707): commit pending changes,
rename the theme branch to `<name>-v<old>-backup-<ts>` (HEAD follows the
rename), check out `main`, and create a fresh `<name>` from `main`. -/
def backupAndRecreateBranch (st : RepoState) (name oldVer ts : Str) :
    RepoState × List GitEffect :=
  let pr := handleUncommitted st ts
  let backupName := backupBranchName name oldVer ts
  let st2 := { pr.1 with
    branches := renameA pr.1.branches name backupName,
    current := if pr.1.current = name then backupName else pr.1.current }
  let st3 := { st2 with current := "main".toList }
  let st4 := { st3 with
    branches := st3.branches ++ [(name, commitsOf st3 ("main".toList))],
    current := name }
  (st4,
    pr.2 ++ [.renameBranch name backupName, .checkout ("main".toList),
      .createBranch name ("main".toList)])

/-- `apply_theme` (lines 514-606).  Steps: theme lookup (`ThemeNotFound`),
manifest version, branch switch, `has_theme_commit` and side-channel version
in the switched context; then either the up-to-date early return (only reload
commands), or — after a version-upgrade backup when `current_version !=
new_version != "unknown"` with a prior apply commit — patch cleanup, the
merge-copy overlay (which dirties the work tree), the side-channel version
write, `add -A`, and the `Apply theme:` commit. -/
def applyTheme (st : RepoState) (name ts : Str) :
    Except Str (RepoState × List GitEffect) :=
  if name ∈ st.themesOnDisk then
    let newVersion := manifestThemeVersion st name
    let pr1 := createOrSwitchBranch st name ts
    let hasCommit := hasThemeCommit pr1.1 name
    let currentVersion := savedThemeVersion pr1.1 name
    if currentVersion = newVersion ∧ hasCommit = true then
      .ok (pr1.1, pr1.2 ++ [.reloadCommands])
    else
      let pr2 :=
        if currentVersion ≠ newVersion ∧ currentVersion ≠ "unknown".toList ∧
            hasCommit = true then
          backupAndRecreateBranch pr1.1 name currentVersion ts
        else (pr1.1, [])
      let stCopied := { pr2.1 with dirty := true }
      let stVer := { stCopied with
        versionFiles := updateA stCopied.versionFiles name newVersion }
      let pr3 := gitCommit stVer (applyCommitMsg name newVersion)
      .ok (pr3.1,
        pr1.2 ++ pr2.2 ++
          [.cleanPatches, .copyThemeFiles, .writeVersionFile name newVersion] ++
          pr3.2)
  else .error ("ThemeNotFound: ".toList ++ name)

/-- `delete_theme_branch` (lines 918-942): refuse empty and `main` names,
report a missing branch, and otherwise `git branch -D` — which fails without
deleting anything when the branch is checked out. -/
def deleteThemeBranch (st : RepoState) (name : Str) : RepoState × Bool :=
  if name = [] ∨ name = "main".toList then (st, false)
  else if branchExists st name = false then (st, false)
  else if st.current = name then (st, false)
  else ({ st with branches := st.branches.filter fun p => decide (p.1 ≠ name) },
    true)

end StateEngine

section StateEngineLemmas

theorem lookupA_cons {α : Type} (p : Str × α) (t : List (Str × α)) (name : Str) :
    lookupA (p :: t) name = if p.1 = name then some p.2 else lookupA t name := by
  unfold lookupA
  rw [List.find?_cons]
  by_cases hp : p.1 = name
  · simp [hp]
  · simp [hp]

theorem lookupA_append {α : Type} (l l' : List (Str × α)) (name : Str) :
    lookupA (l ++ l') name =
      match lookupA l name with
      | some w => some w
      | none => lookupA l' name := by
  induction l with
  | nil => simp [lookupA]
  | cons p t ih =>
    rw [List.cons_append, lookupA_cons, lookupA_cons]
    by_cases hp : p.1 = name
    · simp [hp]
    · simp [hp, ih]

theorem lookupA_replaceAll {α : Type} (l : List (Str × α)) (k : Str) (v : α)
    (name : Str) :
    lookupA (l.map fun p => if p.1 = k then (k, v) else p) name =
      if name = k then
        (if (l.find? fun p => decide (p.1 = k)).isSome then some v else none)
      else lookupA l name := by
  induction l with
  | nil => simp [lookupA]
  | cons p t ih =>
    rw [List.map_cons, lookupA_cons]
    by_cases hpk : p.1 = k
    · rw [if_pos hpk]
      dsimp only
      by_cases hnk : name = k
      · have hkn : k = name := hnk.symm
        rw [if_pos hkn, if_pos hnk, List.find?_cons_of_pos _ (by simp [hpk])]
        simp
      · have hkn : ¬(k = name) := fun h => hnk h.symm
        have hpn : ¬(p.1 = name) := fun h => hkn (hpk.symm.trans h)
        rw [if_neg hkn, ih, if_neg hnk, if_neg hnk, lookupA_cons, if_neg hpn]
    · rw [if_neg hpk]
      by_cases hnk : name = k
      · have hpn : ¬(p.1 = name) := fun h => hpk (h.trans hnk)
        rw [if_neg hpn, ih, if_pos hnk, if_pos hnk,
          List.find?_cons_of_neg _ (by simp [hpk])]
      · by_cases hpn : p.1 = name
        · rw [if_pos hpn, if_neg hnk, lookupA_cons, if_pos hpn]
        · rw [if_neg hpn, ih, if_neg hnk, if_neg hnk, lookupA_cons, if_neg hpn]

theorem lookupA_updateA {α : Type} (l : List (Str × α)) (k : Str) (v : α)
    (name : Str) :
    lookupA (updateA l k v) name =
      if name = k then some v else lookupA l name := by
  unfold updateA
  by_cases hex : (l.find? fun p => decide (p.1 = k)).isSome
  · rw [if_pos hex, lookupA_replaceAll]
    by_cases hnk : name = k
    · simp [hnk, hex]
    · simp [hnk]
  · rw [if_neg hex, lookupA_append]
    by_cases hnk : name = k
    · have hlnone : lookupA l name = none := by
        subst hnk
        unfold lookupA
        cases hf : l.find? fun p => decide (p.1 = name) with
        | some q => rw [hf] at hex; simp at hex
        | none => rfl
      rw [hlnone, if_pos hnk]
      simp [lookupA_cons, hnk]
    · rw [if_neg hnk]
      cases hl : lookupA l name with
      | some w => rfl
      | none =>
        have hkn : ¬((k, v).1 = name) := by simpa using fun h => hnk h.symm
        rw [lookupA_cons, if_neg hkn]
        rfl

theorem containsSub_of_isPrefixOf (hay needle : Str)
    (h : needle.isPrefixOf hay = true) : containsSub hay needle = true := by
  cases hay with
  | nil =>
    rw [containsSub]
    cases needle with
    | nil => rfl
    | cons c t => simp [List.isPrefixOf] at h
  | cons c t =>
    rw [containsSub, h]
    rfl

theorem applyGrep_not_prefix_user (ts : Str) :
    ("Apply theme: ".toList).isPrefixOf (userCommitMsg ts) = false := by
  rw [userCommitMsg,
    show "[USER] Save user customizations - ".toList ++ ts
      = '[' :: ("USER] Save user customizations - ".toList ++ ts) from rfl,
    show "Apply theme: ".toList = 'A' :: "pply theme: ".toList from rfl]
  simp [List.isPrefixOf]

theorem handleUncommitted_fields (st : RepoState) (ts : Str) :
    (handleUncommitted st ts).1.versionFiles = st.versionFiles ∧
    (handleUncommitted st ts).1.current = st.current ∧
    (handleUncommitted st ts).1.dirty = false ∧
    (handleUncommitted st ts).1.manifest = st.manifest ∧
    (handleUncommitted st ts).1.themesOnDisk = st.themesOnDisk := by
  unfold handleUncommitted gitCommit
  by_cases hd : st.dirty = true
  · rw [if_pos hd, if_pos hd]
    exact ⟨rfl, rfl, rfl, rfl, rfl⟩
  · rw [if_neg hd]
    refine ⟨rfl, rfl, ?_, rfl, rfl⟩
    simpa using hd

theorem handleUncommitted_effects (st : RepoState) (ts : Str) :
    (handleUncommitted st ts).2 =
      if st.dirty then [GitEffect.commit (userCommitMsg ts)] else [] := by
  unfold handleUncommitted gitCommit
  by_cases hd : st.dirty = true
  · rw [if_pos hd, if_pos hd, if_pos hd]
  · rw [if_neg hd, if_neg hd]

theorem commitsOf_handleUncommitted (st : RepoState) (ts : Str) (b : Str) :
    commitsOf (handleUncommitted st ts).1 b = commitsOf st b ∨
    commitsOf (handleUncommitted st ts).1 b =
      userCommitMsg ts :: commitsOf st b := by
  unfold handleUncommitted gitCommit
  by_cases hd : st.dirty = true
  · rw [if_pos hd, if_pos hd]
    by_cases hb : b = st.current
    · right
      simp only [commitsOf]
      rw [lookupA_updateA, if_pos hb, hb]
      simp
    · left
      simp only [commitsOf]
      rw [lookupA_updateA, if_neg hb]
  · rw [if_neg hd]
    left
    rfl

end StateEngineLemmas

/-- **C9.**  `delete_theme_branch` returns `False` and deletes nothing when
the name is empty, equals `main`, or names no existing branch; and the
operation never removes the `main` branch from the repository (second
conjunct, over arbitrary inputs). -/
theorem C9_delete_theme_branch (st : RepoState) (name : Str)
    (h : name = [] ∨ name = "main".toList ∨ branchExists st name = false) :
    deleteThemeBranch st name = (st, false) ∧
    (∀ (st₂ : RepoState) (n₂ : Str),
      ("main".toList ∈ branchNames (deleteThemeBranch st₂ n₂).1 ↔
        "main".toList ∈ branchNames st₂)) := by
  constructor
  · unfold deleteThemeBranch
    rcases h with h | h | h
    · rw [if_pos (Or.inl h)]
    · rw [if_pos (Or.inr h)]
    · by_cases h1 : name = [] ∨ name = "main".toList
      · rw [if_pos h1]
      · rw [if_neg h1, if_pos h]
  · intro st₂ n₂
    unfold deleteThemeBranch
    by_cases h1 : n₂ = [] ∨ n₂ = "main".toList
    · rw [if_pos h1]
    · rw [if_neg h1]
      by_cases h2 : branchExists st₂ n₂ = false
      · rw [if_pos h2]
      · rw [if_neg h2]
        by_cases h3 : st₂.current = n₂
        · rw [if_pos h3]
        · rw [if_neg h3]
          constructor
          · intro hm
            simp only [branchNames, List.mem_map] at hm ⊢
            obtain ⟨p, hp, hfst⟩ := hm
            exact ⟨p, List.mem_of_mem_filter hp, hfst⟩
          · intro hm
            simp only [branchNames, List.mem_map] at hm ⊢
            obtain ⟨p, hp, hfst⟩ := hm
            refine ⟨p, List.mem_filter.mpr ⟨hp, ?_⟩, hfst⟩
            simp only [decide_eq_true_eq]
            intro hcon
            exact h1 (Or.inr (hcon.symm.trans hfst))

/-- Witness for `C9_delete_theme_branch`: deleting a branch that does not
exist changes nothing and reports failure. -/
theorem C9_delete_theme_branch_witness :
    deleteThemeBranch
        ⟨[("main".toList, []), ("mocha".toList, [])], "main".toList, false,
          [], none, []⟩ ("ghost".toList) =
      (⟨[("main".toList, []), ("mocha".toList, [])], "main".toList, false,
        [], none, []⟩, false) :=
  (C9_delete_theme_branch _ _ (Or.inr (Or.inr (by decide)))).1

theorem branchExists_handleUncommitted (st : RepoState) (ts name : Str)
    (h : branchExists st name = true) :
    branchExists (handleUncommitted st ts).1 name = true := by
  unfold handleUncommitted gitCommit
  by_cases hd : st.dirty = true
  · rw [if_pos hd, if_pos hd]
    unfold branchExists at *
    simp only []
    rw [lookupA_updateA]
    by_cases hb : name = st.current
    · rw [if_pos hb]
      rfl
    · rw [if_neg hb]
      exact h
  · rw [if_neg hd]
    exact h

theorem hasApply_handleUncommitted (st : RepoState) (ts name : Str)
    (h : (commitsOf st name).any
      (fun c => containsSub c (applyGrep name)) = true) :
    (commitsOf (handleUncommitted st ts).1 name).any
      (fun c => containsSub c (applyGrep name)) = true := by
  rcases commitsOf_handleUncommitted st ts name with hc | hc
  · rw [hc]; exact h
  · rw [hc, List.any_cons, h]
    simp

/-- **C5.**  When the side-channel version file equals the version recorded in
the manifest and the theme branch's history contains a commit whose subject
starts with `Apply theme: <name>`, `apply_theme` only switches to the branch
(committing pending user edits on the way, per `_handle_uncommitted_changes`)
and runs reload commands: the effect trace is exactly the optional `[USER]`
commit, the checkout, and the reload — no patch cleanup, no theme-file copy,
no version-file write — the side-channel version files are untouched, and no
commit whose subject starts with `Apply theme: ` is created. -/
theorem C5_apply_theme_up_to_date (st : RepoState) (name ts v : Str)
    (m : List (Str × Str))
    (hdisk : name ∈ st.themesOnDisk)
    (hbranch : branchExists st name = true)
    (hver : lookupA st.versionFiles name = some v)
    (hman : st.manifest = some m)
    (hmv : lookupA m name = some v)
    (hcommit : (commitsOf st name).any
      (fun c => (applyGrep name).isPrefixOf c) = true) :
    applyTheme st name ts =
      .ok ((createOrSwitchBranch st name ts).1,
        (createOrSwitchBranch st name ts).2 ++ [.reloadCommands]) ∧
    (createOrSwitchBranch st name ts).1.versionFiles = st.versionFiles ∧
    ((createOrSwitchBranch st name ts).2 ++ [GitEffect.reloadCommands] =
      (if st.dirty then [GitEffect.commit (userCommitMsg ts)] else []) ++
        [GitEffect.checkout name, GitEffect.reloadCommands]) ∧
    (∀ msg, GitEffect.commit msg ∈
        (createOrSwitchBranch st name ts).2 ++ [GitEffect.reloadCommands] →
      ("Apply theme: ".toList).isPrefixOf msg = false) := by
  have hfields := handleUncommitted_fields st ts
  have hbe := branchExists_handleUncommitted st ts name hbranch
  have hsw : createOrSwitchBranch st name ts =
      ({ (handleUncommitted st ts).1 with current := name },
        (handleUncommitted st ts).2 ++ [.checkout name]) := by
    unfold createOrSwitchBranch
    rw [if_pos hbe]
  have hverFiles : (createOrSwitchBranch st name ts).1.versionFiles =
      st.versionFiles := by
    rw [hsw]
    exact hfields.1
  have hsaved : savedThemeVersion (createOrSwitchBranch st name ts).1 name = v := by
    unfold savedThemeVersion
    rw [hverFiles, hver]
    rfl
  have hmanv : manifestThemeVersion st name = v := by
    unfold manifestThemeVersion
    rw [hman]
    dsimp only
    rw [hmv]
  have hcontains : (commitsOf st name).any
      (fun c => containsSub c (applyGrep name)) = true := by
    rw [List.any_eq_true] at hcommit ⊢
    obtain ⟨c, hc, hcp⟩ := hcommit
    exact ⟨c, hc, containsSub_of_isPrefixOf _ _ hcp⟩
  have hhas : hasThemeCommit (createOrSwitchBranch st name ts).1 name = true := by
    unfold hasThemeCommit
    rw [hsw]
    have hcur : ({ (handleUncommitted st ts).1 with current := name } :
        RepoState).current = name := rfl
    rw [hcur]
    have hbr : commitsOf ({ (handleUncommitted st ts).1 with current := name } :
        RepoState) name = commitsOf (handleUncommitted st ts).1 name := rfl
    rw [hbr]
    exact hasApply_handleUncommitted st ts name hcontains
  have heff : (createOrSwitchBranch st name ts).2 ++ [GitEffect.reloadCommands] =
      (if st.dirty then [GitEffect.commit (userCommitMsg ts)] else []) ++
        [GitEffect.checkout name, GitEffect.reloadCommands] := by
    rw [hsw]
    simp only []
    rw [handleUncommitted_effects]
    by_cases hd : st.dirty = true
    · rw [if_pos hd]
      rfl
    · rw [if_neg hd]
      rfl
  refine ⟨?_, hverFiles, heff, ?_⟩
  · unfold applyTheme
    rw [if_pos hdisk]
    simp only []
    rw [if_pos ⟨by rw [hsaved, hmanv], hhas⟩]
  · intro msg hmem
    rw [heff] at hmem
    by_cases hd : st.dirty = true
    · rw [if_pos hd] at hmem
      simp only [List.cons_append, List.nil_append, List.mem_cons,
        List.mem_singleton] at hmem
      rcases hmem with hmem | hmem | hmem
      · have : msg = userCommitMsg ts := by
          injection hmem
        rw [this]
        exact applyGrep_not_prefix_user ts
      · exact absurd hmem (by simp)
      · exact absurd hmem (by simp)
    · rw [if_neg hd] at hmem
      simp only [List.nil_append, List.mem_cons, List.mem_singleton] at hmem
      rcases hmem with hmem | hmem
      · exact absurd hmem (by simp)
      · exact absurd hmem (by simp)

/-- Witness for `C5_apply_theme_up_to_date`: an up-to-date theme (matching
versions, prior apply commit) is only switched to and reloaded. -/
theorem C5_apply_theme_up_to_date_witness :
    applyTheme
        ⟨[("main".toList, ["init".toList]),
          ("mocha".toList, ["Apply theme: mocha v1.0".toList, "init".toList])],
          "main".toList, false, [("mocha".toList, "1.0".toList)],
          some [("mocha".toList, "1.0".toList)], ["mocha".toList]⟩
        ("mocha".toList) ("20240101".toList) =
      .ok ((createOrSwitchBranch
          ⟨[("main".toList, ["init".toList]),
            ("mocha".toList, ["Apply theme: mocha v1.0".toList, "init".toList])],
            "main".toList, false, [("mocha".toList, "1.0".toList)],
            some [("mocha".toList, "1.0".toList)], ["mocha".toList]⟩
          ("mocha".toList) ("20240101".toList)).1,
        (createOrSwitchBranch
          ⟨[("main".toList, ["init".toList]),
            ("mocha".toList, ["Apply theme: mocha v1.0".toList, "init".toList])],
            "main".toList, false, [("mocha".toList, "1.0".toList)],
            some [("mocha".toList, "1.0".toList)], ["mocha".toList]⟩
          ("mocha".toList) ("20240101".toList)).2 ++ [.reloadCommands]) :=
  (C5_apply_theme_up_to_date _ ("mocha".toList) ("20240101".toList)
    ("1.0".toList) [("mocha".toList, "1.0".toList)] (by decide) (by decide)
    (by decide) rfl (by decide) (by decide)).1

section BackupLemmas

theorem handleUncommitted_clean (st : RepoState) (ts : Str)
    (h : st.dirty = false) : handleUncommitted st ts = (st, []) := by
  unfold handleUncommitted
  rw [if_neg (by rw [h]; exact Bool.false_ne_true)]

theorem lookupA_isSome_iff_mem {α : Type} (l : List (Str × α)) (k : Str) :
    (l.find? fun p => decide (p.1 = k)).isSome = true ↔
      k ∈ l.map Prod.fst := by
  rw [List.find?_isSome]
  constructor
  · rintro ⟨p, hp, hpk⟩
    simp only [decide_eq_true_eq] at hpk
    exact List.mem_map.mpr ⟨p, hp, hpk⟩
  · intro hk
    obtain ⟨p, hp, hpk⟩ := List.mem_map.mp hk
    exact ⟨p, hp, by simp [hpk]⟩

theorem branchNames_updateA_mem (l : List (Str × List Str)) (k : Str)
    (v : List Str) (hk : k ∈ l.map Prod.fst) :
    (updateA l k v).map Prod.fst = l.map Prod.fst := by
  unfold updateA
  rw [if_pos ((lookupA_isSome_iff_mem l k).mpr hk), List.map_map]
  apply List.map_congr_left
  intro p _
  by_cases h : p.1 = k
  · simp [h]
  · simp [h]

theorem branchNames_renameA (l : List (Str × List Str)) (o n : Str) :
    (renameA l o n).map Prod.fst =
      (l.map Prod.fst).map fun b => if b = o then n else b := by
  unfold renameA
  rw [List.map_map, List.map_map]
  apply List.map_congr_left
  intro p _
  by_cases h : p.1 = o
  · simp [h]
  · simp [h]

theorem branchNames_handleUncommitted (st : RepoState) (ts : Str)
    (hcur : st.current ∈ branchNames st) :
    branchNames (handleUncommitted st ts).1 = branchNames st := by
  unfold handleUncommitted gitCommit
  by_cases hd : st.dirty = true
  · rw [if_pos hd, if_pos hd]
    exact branchNames_updateA_mem _ _ _ hcur
  · rw [if_neg hd]

theorem count_map_rename (l : List Str) (o n : Str) (hfresh : n ∉ l)
    (hne : o ≠ n) :
    ((l.map fun b => if b = o then n else b).count n = l.count o) ∧
    ((l.map fun b => if b = o then n else b).count o = 0) := by
  induction l with
  | nil => simp
  | cons b t ih =>
    have hfresh' : n ∉ t := fun h => hfresh (by simp [h])
    have hbn : b ≠ n := fun h => hfresh (by simp [h])
    obtain ⟨ih1, ih2⟩ := ih hfresh'
    have hne' : n ≠ o := fun h => hne h.symm
    by_cases hbo : b = o
    · rw [List.map_cons, if_pos hbo]
      constructor
      · simp [List.count_cons, ih1, hbo]
      · simp [List.count_cons, ih2, hne']
    · rw [List.map_cons, if_neg hbo]
      constructor
      · simp [List.count_cons, ih1, hbn, hbo]
      · simp [List.count_cons, ih2, hbo]

theorem backupBranchName_ne (name v ts : Str) :
    name ≠ backupBranchName name v ts := by
  intro h
  have := congrArg List.length h
  simp [backupBranchName] at this

end BackupLemmas

theorem backupAndRecreate_parts (st : RepoState) (name oldVer ts : Str)
    (hc : st.dirty = false) :
    branchNames (backupAndRecreateBranch st name oldVer ts).1 =
      ((branchNames st).map
        fun b => if b = name then backupBranchName name oldVer ts else b) ++
        [name] ∧
    (backupAndRecreateBranch st name oldVer ts).1.current = name ∧
    (backupAndRecreateBranch st name oldVer ts).2 =
      [.renameBranch name (backupBranchName name oldVer ts),
        .checkout ("main".toList), .createBranch name ("main".toList)] ∧
    (backupAndRecreateBranch st name oldVer ts).1.dirty = false := by
  unfold backupAndRecreateBranch
  rw [handleUncommitted_clean st ts hc]
  simp only []
  refine ⟨?_, ?_, ?_, ?_⟩
  case refine_2 => trivial
  case refine_3 => trivial
  case refine_4 => exact hc
  unfold branchNames
  simp only [List.map_append]
  rw [show (renameA st.branches name (backupBranchName name oldVer ts)).map
        Prod.fst =
      (st.branches.map Prod.fst).map
        (fun b => if b = name then backupBranchName name oldVer ts else b)
    from branchNames_renameA st.branches name (backupBranchName name oldVer ts)]
  rfl

/-- **C6 (amended).**  When the recorded side-channel version `v` differs from
the manifest version, is not the missing-file sentinel `unknown`, the branch
history holds a prior apply commit, the timestamped backup name is fresh, and
branch names are well-formed (`HEAD` on an existing branch, `<name>` listed
once), `apply_theme` renames the theme branch to
`<name>-v<v>-backup-<ts>` — producing exactly one branch of that name — and
recreates `<name>` fresh from `main`. -/
theorem C6_apply_theme_backup (st : RepoState) (name ts v w : Str)
    (m : List (Str × Str))
    (hdisk : name ∈ st.themesOnDisk)
    (hbranch : branchExists st name = true)
    (hcur : st.current ∈ branchNames st)
    (hver : lookupA st.versionFiles name = some v)
    (hman : st.manifest = some m)
    (hmv : lookupA m name = some w)
    (hvw : v ≠ w)
    (hvunk : v ≠ "unknown".toList)
    (hcommit : (commitsOf st name).any
      (fun c => (applyGrep name).isPrefixOf c) = true)
    (hfresh : backupBranchName name v ts ∉ branchNames st)
    (hcount : (branchNames st).count name = 1) :
    ∃ st' effs, applyTheme st name ts = .ok (st', effs) ∧
      GitEffect.renameBranch name (backupBranchName name v ts) ∈ effs ∧
      GitEffect.createBranch name ("main".toList) ∈ effs ∧
      branchNames st' =
        ((branchNames st).map
          fun b => if b = name then backupBranchName name v ts else b) ++
          [name] ∧
      (branchNames st').count (backupBranchName name v ts) = 1 ∧
      (branchNames st').count name = 1 := by
  have hfields := handleUncommitted_fields st ts
  have hbe := branchExists_handleUncommitted st ts name hbranch
  have hsw : createOrSwitchBranch st name ts =
      ({ (handleUncommitted st ts).1 with current := name },
        (handleUncommitted st ts).2 ++ [.checkout name]) := by
    unfold createOrSwitchBranch
    rw [if_pos hbe]
  have hverFiles : (createOrSwitchBranch st name ts).1.versionFiles =
      st.versionFiles := by
    rw [hsw]
    exact hfields.1
  have hsaved : savedThemeVersion (createOrSwitchBranch st name ts).1 name
      = v := by
    unfold savedThemeVersion
    rw [hverFiles, hver]
    rfl
  have hmanv : manifestThemeVersion st name = w := by
    unfold manifestThemeVersion
    rw [hman]
    dsimp only
    rw [hmv]
  have hcontains : (commitsOf st name).any
      (fun c => containsSub c (applyGrep name)) = true := by
    rw [List.any_eq_true] at hcommit ⊢
    obtain ⟨c, hc, hcp⟩ := hcommit
    exact ⟨c, hc, containsSub_of_isPrefixOf _ _ hcp⟩
  have hhas : hasThemeCommit (createOrSwitchBranch st name ts).1 name
      = true := by
    unfold hasThemeCommit
    rw [hsw]
    exact hasApply_handleUncommitted st ts name hcontains
  have hdirty1 : (createOrSwitchBranch st name ts).1.dirty = false := by
    rw [hsw]
    exact hfields.2.2.1
  have hnames1 : branchNames (createOrSwitchBranch st name ts).1 =
      branchNames st := by
    rw [hsw]
    show branchNames (handleUncommitted st ts).1 = branchNames st
    exact branchNames_handleUncommitted st ts hcur
  have hparts := backupAndRecreate_parts (createOrSwitchBranch st name ts).1
    name v ts hdirty1
  obtain ⟨hnames2, hcur2, heffs2, hdirty2⟩ := hparts
  rw [hnames1] at hnames2
  have hcond1 : ¬(savedThemeVersion (createOrSwitchBranch st name ts).1 name =
      manifestThemeVersion st name ∧
      hasThemeCommit (createOrSwitchBranch st name ts).1 name = true) := by
    rintro ⟨h1, _⟩
    rw [hsaved, hmanv] at h1
    exact hvw h1
  have hcond2 : savedThemeVersion (createOrSwitchBranch st name ts).1 name ≠
        manifestThemeVersion st name ∧
      savedThemeVersion (createOrSwitchBranch st name ts).1 name ≠
        "unknown".toList ∧
      hasThemeCommit (createOrSwitchBranch st name ts).1 name = true := by
    rw [hsaved, hmanv]
    exact ⟨hvw, hvunk, hhas⟩
  unfold applyTheme
  rw [if_pos hdisk]
  simp only []
  rw [if_neg hcond1, if_pos hcond2, hsaved]
  refine ⟨_, _, rfl, ?_, ?_, ?_, ?_, ?_⟩
  · rw [heffs2]
    simp
  · rw [heffs2]
    simp
  all_goals {
    have hnamesF : branchNames
        (gitCommit
          { (({ (backupAndRecreateBranch (createOrSwitchBranch st name ts).1
                  name v ts).1 with dirty := true } : RepoState)) with
            versionFiles := updateA
              ({ (backupAndRecreateBranch (createOrSwitchBranch st name ts).1
                  name v ts).1 with dirty := true } :
                RepoState).versionFiles name (manifestThemeVersion st name) }
          (applyCommitMsg name (manifestThemeVersion st name))).1 =
        ((branchNames st).map
          fun b => if b = name then backupBranchName name v ts else b) ++
          [name] := by
      unfold gitCommit
      rw [if_pos rfl]
      show (updateA (backupAndRecreateBranch (createOrSwitchBranch st name ts).1
          name v ts).1.branches _ _).map Prod.fst = _
      rw [branchNames_updateA_mem]
      · exact hnames2
      · show name ∈ branchNames (backupAndRecreateBranch
          (createOrSwitchBranch st name ts).1 name v ts).1
        rw [hnames2]
        simp
    have hcm := count_map_rename (branchNames st) name
      (backupBranchName name v ts) hfresh (backupBranchName_ne name v ts)
    first
      | exact hnamesF
      | (rw [hnamesF, List.count_append, hcm.1, hcount]
         simp [List.count_cons, backupBranchName_ne name v ts])
      | (rw [hnamesF, List.count_append, hcm.2]
         simp [List.count_cons])
  }

/-- A repository state for the C6 witness: theme `mocha` applied at version
0.9, manifest already at 1.0. -/
def c6State : RepoState :=
  ⟨[("main".toList, ["init".toList]),
    ("mocha".toList, ["Apply theme: mocha v0.9".toList, "init".toList])],
    "main".toList, false, [("mocha".toList, "0.9".toList)],
    some [("mocha".toList, "1.0".toList)], ["mocha".toList]⟩

/-- Witness for `C6_apply_theme_backup`: the upgrade run renames `mocha` to
the timestamped backup branch, which afterwards exists exactly once. -/
theorem C6_apply_theme_backup_witness :
    GitEffect.renameBranch ("mocha".toList)
        (backupBranchName ("mocha".toList) ("0.9".toList) ("20240101".toList)) ∈
      (((applyTheme c6State ("mocha".toList) ("20240101".toList)).toOption.map
        Prod.snd).getD []) ∧
    (branchNames
        (((applyTheme c6State ("mocha".toList)
          ("20240101".toList)).toOption.map Prod.fst).getD c6State)).count
      (backupBranchName ("mocha".toList) ("0.9".toList) ("20240101".toList))
      = 1 := by
  obtain ⟨st', effs, heq, hrn, hcb, hbn, hc1, hc2⟩ :=
    C6_apply_theme_backup c6State ("mocha".toList) ("20240101".toList)
      ("0.9".toList) ("1.0".toList) [("mocha".toList, "1.0".toList)]
      (by decide) (by decide) (by decide) (by decide) rfl (by decide)
      (by decide) (by decide) (by decide) (by decide) (by decide)
  rw [heq]
  exact ⟨hrn, hc1⟩

/-- A repository state whose side-channel version file literally contains the
sentinel string `unknown` while the manifest records `1.0`. -/
def c6BadState : RepoState :=
  ⟨[("main".toList, ["init".toList]),
    ("mocha".toList, ["Apply theme: mocha v0.9".toList, "init".toList])],
    "main".toList, false, [("mocha".toList, "unknown".toList)],
    some [("mocha".toList, "1.0".toList)], ["mocha".toList]⟩

/-- **C6 counterexample.**  The claim as stated: whenever the manifest version
differs from the side-channel version and a prior apply commit exists, exactly
one backup branch is created.  If the version file's recorded content is the
string `unknown` — which differs from the manifest's `1.0` and the branch has
a prior `Apply theme: mocha` commit — the guard `current_version != "unknown"`
in `apply_theme` skips `_backup_and_recreate_branch`: no branch is renamed and
the branch list is unchanged, refuting the claim at this input. -/
theorem C6_unknown_sentinel_no_backup :
    lookupA c6BadState.versionFiles ("mocha".toList)
      = some ("unknown".toList) ∧
    manifestThemeVersion c6BadState ("mocha".toList) = "1.0".toList ∧
    ("unknown".toList : Str) ≠ "1.0".toList ∧
    (commitsOf c6BadState ("mocha".toList)).any
      (fun c => (applyGrep ("mocha".toList)).isPrefixOf c) = true ∧
    (branchNames
        (((applyTheme c6BadState ("mocha".toList)
          ("20240101".toList)).toOption.map Prod.fst).getD c6BadState)) =
      branchNames c6BadState ∧
    (((applyTheme c6BadState ("mocha".toList)
        ("20240101".toList)).toOption.map Prod.snd).getD []).all
      (fun e => match e with
        | GitEffect.renameBranch _ _ => false
        | _ => true) = true := by
  refine ⟨rfl, by decide, by decide, by decide, by decide, by decide⟩

section LineInfra

/-!
## Line infrastructure for the patch engine

File contents are lists of characters; the patch-engine regexes anchor at
line boundaries (`re.MULTILINE`), so contents are analyzed as lists of
newline-free lines.  `splitLines`/`joinLines` form the bijection between the
two views (`str.split("\n")` semantics: `n+1` lines for `n` newlines).
-/

abbrev Line := Str

def splitLines : Str → List Line
  | [] => [[]]
  | c :: t =>
    if c = '\n' then [] :: splitLines t
    else
      match splitLines t with
      | [] => [[c]]
      | h :: r => (c :: h) :: r

def joinLines : List Line → Str
  | [] => []
  | [h] => h
  | h :: r => h ++ '\n' :: joinLines r

theorem splitLines_ne_nil (s : Str) : splitLines s ≠ [] := by
  cases s with
  | nil => simp [splitLines]
  | cons c t =>
    rw [splitLines]
    by_cases hc : c = '\n'
    · simp [hc]
    · rw [if_neg hc]
      cases splitLines t <;> simp

theorem splitLines_cons_of_ne (c : Char) (t : Str) (hc : c ≠ '\n') :
    splitLines (c :: t) =
      (c :: (splitLines t).headI) :: (splitLines t).tail := by
  rw [splitLines, if_neg hc]
  cases h : splitLines t with
  | nil => exact absurd h (splitLines_ne_nil t)
  | cons a r => simp

theorem splitLines_append (a b : Str) :
    splitLines (a ++ '\n' :: b) = splitLines a ++ splitLines b := by
  induction a with
  | nil => simp [splitLines]
  | cons c t ih =>
    by_cases hc : c = '\n'
    · subst hc
      rw [List.cons_append, splitLines, if_pos rfl, ih, splitLines, if_pos rfl]
      rfl
    · rw [List.cons_append, splitLines_cons_of_ne c _ hc, ih,
        splitLines_cons_of_ne c t hc]
      cases h : splitLines t with
      | nil => exact absurd h (splitLines_ne_nil t)
      | cons x r => simp

theorem joinLines_cons (h : Line) (r : List Line) (hr : r ≠ []) :
    joinLines (h :: r) = h ++ '\n' :: joinLines r := by
  cases r with
  | nil => simp at hr
  | cons x t => rfl

theorem joinLines_singleton (h : Line) : joinLines [h] = h := rfl

theorem join_splitLines (s : Str) : joinLines (splitLines s) = s := by
  induction s with
  | nil => simp [splitLines, joinLines, List.intercalate]
  | cons c t ih =>
    by_cases hc : c = '\n'
    · subst hc
      rw [splitLines, if_pos rfl,
        joinLines_cons _ _ (splitLines_ne_nil t), ih]
      rfl
    · rw [splitLines_cons_of_ne c t hc]
      cases h : splitLines t with
      | nil => exact absurd h (splitLines_ne_nil t)
      | cons x r =>
        rw [h] at ih
        simp only [List.headI, List.tail]
        cases r with
        | nil =>
          rw [joinLines_singleton] at ih ⊢
          rw [← ih]
        | cons y q =>
          rw [joinLines_cons _ _ (by simp)] at ih
          rw [joinLines_cons _ _ (by simp), ← ih]
          simp

theorem joinLines_append (A B : List Line) (hA : A ≠ []) (hB : B ≠ []) :
    joinLines (A ++ B) = joinLines A ++ '\n' :: joinLines B := by
  induction A with
  | nil => simp at hA
  | cons h r ih =>
    cases r with
    | nil =>
      rw [List.cons_append, List.nil_append,
        joinLines_cons _ _ hB, joinLines_singleton]
    | cons x t =>
      rw [List.cons_append,
        joinLines_cons _ _ (by simp),
        joinLines_cons _ _ (by simp [hB]),
        ih (by simp)]
      simp

end LineInfra

section PatchEngine

/-!
## `PatchEngine.apply_to_file` (src/theming/patch_engine.py:21-70) and
## `_clean_old_patches_from_file` (src/pawlette/core/selective_manager.py:338-391)

Both functions delete marker-delimited blocks with `re.sub`:

* pattern A (`apply_to_file`, flags `DOTALL | IGNORECASE | MULTILINE`):
  `^\s*{style}\s+PAW-THEME-(PRE|POST)-START:\s*{theme}.*?^\s*{style}\s+PAW-THEME-\1-END:\s*{theme}\s*$`
* pattern B (`_clean_old_patches_from_file`, flags `DOTALL | MULTILINE`):
  `^\s*{style}\s+PAW-THEME-(PRE|POST)-START:.*?^\s*{style}\s+PAW-THEME-\1-END:.*?$`

The patterns anchor every marker at a line boundary (`^`, MULTILINE), so the
substitution is compiled here to an executable scan over the list of lines:

* a match begins at the leftmost line from which `^\s*` reaches a START
  marker line — i.e. at the START line itself or at the first line of a
  whole-line whitespace run immediately preceding it;
* `(PRE|POST)` with the back-reference `\1` forces the lazy `.*?` to stop at
  the first following line carrying the END marker of the same kind; a START
  with no such END matches nothing and the scan moves past it;
* for pattern A the trailing `\s*$` greedily absorbs whole blank lines after
  the END line, stopping before the newline that precedes the first
  non-blank line (or at end of input); the leftover newline becomes an empty
  junction line in the output, and when the last absorbed blank line was
  empty the junction position sits right after a newline of the input, so
  the next `^` can match there and the scan resumes at the junction itself;
* for pattern B the lazy `.*?$` stops at the end of the END marker line and
  the scan resumes right after it.

Case-insensitive matching (`IGNORECASE` in pattern A) is modeled for the
ASCII range, which covers the marker literals, the comment styles, and the
file-system-derived theme names; `\s` is the full Python whitespace set
`pyIsSpace`.  Whitespace crossing a line boundary *inside* a marker (a
`START:`/`END:` colon separated from the theme name by a newline) is outside
the model: a marker line carries its whole `{style} PAW-THEME-…` text.
This line-level compilation was differentially tested against Python's
`re.sub` on both patterns.
-/

/-- The two marker kinds of the `(PRE|POST)` capture group. -/
inductive MKind where
  | pre
  | post
deriving DecidableEq, Repr

/-- The literal matched after `PAW-THEME-` up to the colon of a START
marker. -/
def litStart : MKind → Str
  | .pre => "PAW-THEME-PRE-START:".toList
  | .post => "PAW-THEME-POST-START:".toList

/-- The literal of an END marker, as forced by the back-reference `\1`. -/
def litEnd : MKind → Str
  | .pre => "PAW-THEME-PRE-END:".toList
  | .post => "PAW-THEME-POST-END:".toList

/-- Strip a literal case-insensitively (ASCII `IGNORECASE`): `some r` when
the input starts with the literal up to case, with `r` the rest. -/
def stripCI : Str → Str → Option Str
  | [], s => some s
  | _ :: _, [] => none
  | c :: lt, d :: st => if lowerChar d = lowerChar c then stripCI lt st else none

/-- Strip a literal case-sensitively. -/
def stripCS : Str → Str → Option Str
  | [], s => some s
  | _ :: _, [] => none
  | c :: lt, d :: st => if d = c then stripCS lt st else none

/-- A line consisting of whitespace only (including the empty line): exactly
the lines absorbable by `^\s*` and `\s*$` across line boundaries. -/
def lineIsBlank (l : Line) : Bool := l.all pyIsSpace

/-- The `^\s*{style}\s+` anchor of every marker: skip leading whitespace,
strip the comment style, require one whitespace, skip further whitespace.
Returns the text after the anchor (where the `PAW-THEME-…` literal must
follow, so skipping all whitespace is exact: the literal starts with a
non-whitespace character). -/
def anchorTail (strip : Str → Str → Option Str) (style : Str) (l : Line) :
    Option Str :=
  match strip style (l.dropWhile pyIsSpace) with
  | none => none
  | some [] => none
  | some (c :: t) =>
    if pyIsSpace c then some (t.dropWhile pyIsSpace) else none

/-- `\s*{theme}` after the START colon: the theme matches at some point of
the leading whitespace run (the following `.*?` is unconstrained). -/
def themeAfterWsCI (theme : Str) : Str → Bool
  | [] => (stripCI theme []).isSome
  | c :: t =>
    (stripCI theme (c :: t)).isSome || (pyIsSpace c && themeAfterWsCI theme t)

/-- `\s*{theme}\s*$` after the END colon: theme after some whitespace
prefix, followed by whitespace up to the end of the line. -/
def themeWsEndCI (theme : Str) : Str → Bool
  | [] =>
    match stripCI theme [] with
    | some r => lineIsBlank r
    | none => false
  | c :: t =>
    (match stripCI theme (c :: t) with
     | some r => lineIsBlank r
     | none => false) || (pyIsSpace c && themeWsEndCI theme t)

/-- Pattern A START marker line (case-insensitive, theme-specific). -/
def isStartA (style theme : Str) (K : MKind) (l : Line) : Bool :=
  match anchorTail stripCI style l with
  | none => false
  | some t =>
    match stripCI (litStart K) t with
    | none => false
    | some u => themeAfterWsCI theme u

/-- Pattern A END marker line (case-insensitive, theme-specific,
whitespace-only tail from `\s*$`). -/
def isEndA (style theme : Str) (K : MKind) (l : Line) : Bool :=
  match anchorTail stripCI style l with
  | none => false
  | some t =>
    match stripCI (litEnd K) t with
    | none => false
    | some u => themeWsEndCI theme u

/-- Pattern B START marker line (case-sensitive, any tail via `.*?`). -/
def isStartB (style : Str) (K : MKind) (l : Line) : Bool :=
  match anchorTail stripCS style l with
  | none => false
  | some t => (stripCS (litStart K) t).isSome

/-- Pattern B END marker line (case-sensitive, any tail via `.*?$`). -/
def isEndB (style : Str) (K : MKind) (l : Line) : Bool :=
  match anchorTail stripCS style l with
  | none => false
  | some t => (stripCS (litEnd K) t).isSome

/-- A marker-removal pattern, reduced to its line predicates and whether the
trailing `\s*$` absorbs blank lines (pattern A) or the match stops at the
END line (`.*?$`, pattern B). -/
structure MatcherSpec where
  isStart : MKind → Line → Bool
  isEnd : MKind → Line → Bool
  absorbTrail : Bool

/-- The `apply_to_file` pattern for a given comment style and theme. -/
def specA (style theme : Str) : MatcherSpec :=
  ⟨isStartA style theme, isEndA style theme, true⟩

/-- The `_clean_old_patches_from_file` pattern for a given comment style. -/
def specB (style : Str) : MatcherSpec :=
  ⟨isStartB style, isEndB style, false⟩

/-- Which alternative of `(PRE|POST)` matches a line (`PRE` is tried first;
the two are mutually exclusive anyway). -/
def startKind (sp : MatcherSpec) (l : Line) : Option MKind :=
  if sp.isStart .pre l then some .pre
  else if sp.isStart .post l then some .post
  else none

/-- Lazy `.*?` up to the back-referenced END marker: the first END line of
kind `K`, together with the lines after it. -/
def dropThroughEnd (sp : MatcherSpec) (K : MKind) :
    List Line → Option (Line × List Line)
  | [] => none
  | l :: rest =>
    if sp.isEnd K l then some (l, rest) else dropThroughEnd sp K rest

/-- A match whose START marker is the given line: its kind, END line, and
the lines after the END line. -/
def startEnd (sp : MatcherSpec) (l : Line) (rest : List Line) :
    Option (MKind × Line × List Line) :=
  match startKind sp l with
  | none => none
  | some K => (dropThroughEnd sp K rest).map (fun p => (K, p.1, p.2))

/-- Does a whole-line whitespace run lead directly to a completable START
marker?  (`^\s*` may begin matching on a blank line above the marker.) -/
def leadsToStart (sp : MatcherSpec) :
    List Line → Option (MKind × Line × Line × List Line)
  | [] => none
  | l :: rest =>
    match startEnd sp l rest with
    | some (K, e, after) => some (K, l, e, after)
    | none => if lineIsBlank l then leadsToStart sp rest else none

/-- Leftmost match: kept prefix lines, marker kind, START line, END line,
and the lines after the END line. -/
def findM (sp : MatcherSpec) :
    List Line → Option (List Line × MKind × Line × Line × List Line)
  | [] => none
  | l :: rest =>
    match startEnd sp l rest with
    | some (K, e, after) => some ([], K, l, e, after)
    | none =>
      match (if lineIsBlank l then leadsToStart sp rest else none) with
      | some (K, s, e, after) => some ([], K, s, e, after)
      | none => (findM sp rest).map (fun p => (l :: p.1, p.2))

/-- Continuation after a pattern-A match: `\s*$` absorbs whole blank lines
up to the newline before the first non-blank line.  `none`: the match runs
to the end of input.  `some (emit, rest)`: scanning resumes on `rest`;
`emit` tells whether the junction empty line is final output (`true`) or is
itself a line start of the remaining input and must be rescanned (`false`,
exactly when the last absorbed blank line was empty). -/
def contA (after : List Line) : Option (Bool × List Line) :=
  match after.dropWhile lineIsBlank with
  | [] => none
  | x :: rest =>
    match (after.takeWhile lineIsBlank).getLast? with
    | some [] => some (false, [] :: x :: rest)
    | _ => some (true, x :: rest)

/-- `pattern.sub("", ·)` on lines: repeatedly delete the leftmost match,
emitting an empty junction line for the newline left at each deletion
point.  Fuel is the line count; every match consumes at least its START and
END lines, so the initial fuel is never exhausted. -/
def subGo (sp : MatcherSpec) : Nat → List Line → List Line
  | 0, ls => ls
  | fuel + 1, ls =>
    match findM sp ls with
    | none => ls
    | some (pref, _, _, _, after) =>
      if sp.absorbTrail then
        match contA after with
        | none => pref ++ [[]]
        | some (true, rest) => pref ++ [[]] ++ subGo sp fuel rest
        | some (false, rest) => pref ++ subGo sp fuel rest
      else pref ++ [[]] ++ subGo sp fuel after

/-- The (kind, START line, END line) of every region deleted by the scan of
`subGo`, in order. -/
def removedSpansGo (sp : MatcherSpec) : Nat → List Line → List (MKind × Line × Line)
  | 0, _ => []
  | fuel + 1, ls =>
    match findM sp ls with
    | none => []
    | some (_, K, s, e, after) =>
      (K, s, e) ::
        (if sp.absorbTrail then
          match contA after with
          | none => []
          | some (_, rest) => removedSpansGo sp fuel rest
         else removedSpansGo sp fuel after)

/-- `pattern.sub("", content)` for a marker-removal pattern. -/
def regexSub (sp : MatcherSpec) (content : Str) : Str :=
  joinLines (subGo sp (splitLines content).length (splitLines content))

/-- The deleted regions of `regexSub`, each reported by its marker lines. -/
def removedSpans (sp : MatcherSpec) (content : Str) : List (MKind × Line × Line) :=
  removedSpansGo sp (splitLines content).length (splitLines content)

/-- `FormatManager.get_comment_style`: the default `comment_styles` table of
`constants.COMMENT_FORMATS` (`.json → //`, `.conf/.yaml/.toml → #`) with
fallback `#`; `ext` is the already lower-cased `file_path.suffix`. -/
def getCommentStyle (ext : Str) : Str :=
  if ext = ".json".toList then "//".toList
  else if ext = ".conf".toList then "#".toList
  else if ext = ".yaml".toList then "#".toList
  else if ext = ".toml".toList then "#".toList
  else "#".toList

/-- `PatchEngine.apply_to_file` on contents: clean the theme's old blocks
with pattern A, then assemble `PRE block (if pre nonempty) ++
cleaned.strip() + "\n" ++ POST block (if post nonempty)` and strip the
result (the written file text). -/
def applyToFile (ext theme pre post original : Str) : Str :=
  pyStrip
    ((if pre.isEmpty then [] else
        getCommentStyle ext ++ " PAW-THEME-PRE-START: ".toList ++ theme ++ '\n' :: pre
          ++ getCommentStyle ext ++ " PAW-THEME-PRE-END: ".toList ++ theme ++ "\n\n".toList)
      ++ (pyStrip (regexSub (specA (getCommentStyle ext) theme) original) ++ ['\n'])
      ++ (if post.isEmpty then [] else
        '\n' :: getCommentStyle ext ++ " PAW-THEME-POST-START: ".toList ++ theme ++ '\n' :: post
          ++ getCommentStyle ext ++ " PAW-THEME-POST-END: ".toList ++ theme ++ "\n".toList))

/-- The blank-line collapsing loop of `_clean_old_patches_from_file`: keep a
line unless it and its predecessor are both whitespace-only. -/
def collapseBlankRuns : List Line → Bool → List Line
  | [], _ => []
  | l :: rest, prevEmpty =>
    (if lineIsBlank l && prevEmpty then [] else [l])
      ++ collapseBlankRuns rest (lineIsBlank l)

/-- The trailing `while cleaned_lines and not cleaned_lines[-1].strip():
cleaned_lines.pop()` loop. -/
def dropTrailingBlanks (ls : List Line) : List Line :=
  (ls.reverse.dropWhile lineIsBlank).reverse

/-- `_clean_old_patches_from_file` on contents: pattern-B removal, blank-run
collapsing, trailing-blank trimming, final newline. -/
def cleanOldPatchesFromFile (ext content : Str) : Str :=
  let style := getCommentStyle ext
  let cleaned := regexSub (specB style) content
  let kept := dropTrailingBlanks (collapseBlankRuns (splitLines cleaned) false)
  let final := joinLines kept
  if final.isEmpty then final
  else if final.getLast? = some '\n' then final
  else final ++ ['\n']

/-- The literal the spec forbids in marker-free content. -/
def pawThemeLit : Str := "PAW-THEME".toList

end PatchEngine

section PatchEngineLemmas

theorem stripCI_sound (lit : Str) : ∀ s r, stripCI lit s = some r →
    lowerStr s = lowerStr lit ++ lowerStr r := by
  induction lit with
  | nil =>
    intro s r h
    simp [stripCI] at h
    subst h
    simp [lowerStr]
  | cons c lt ih =>
    intro s r h
    cases s with
    | nil => simp [stripCI] at h
    | cons d st =>
      simp only [stripCI] at h
      by_cases hc : lowerChar d = lowerChar c
      · rw [if_pos hc] at h
        have ht := ih st r h
        simp only [lowerStr, List.map_cons, List.cons_append] at ht ⊢
        rw [hc, ht]
      · rw [if_neg hc] at h
        exact absurd h (by simp)

theorem stripCS_sound (lit : Str) : ∀ s r, stripCS lit s = some r →
    s = lit ++ r := by
  induction lit with
  | nil =>
    intro s r h
    simp [stripCS] at h
    subst h
    simp
  | cons c lt ih =>
    intro s r h
    cases s with
    | nil => simp [stripCS] at h
    | cons d st =>
      simp only [stripCS] at h
      by_cases hc : d = c
      · rw [if_pos hc] at h
        rw [List.cons_append, hc, ih st r h]
      · rw [if_neg hc] at h
        exact absurd h (by simp)

theorem stripCI_refl (lit : Str) : ∀ r, stripCI lit (lit ++ r) = some r := by
  induction lit with
  | nil => intro r; rfl
  | cons c lt ih =>
    intro r
    simp only [List.cons_append, stripCI, if_pos rfl]
    exact ih r

theorem stripCS_refl (lit : Str) : ∀ r, stripCS lit (lit ++ r) = some r := by
  induction lit with
  | nil => intro r; rfl
  | cons c lt ih =>
    intro r
    simp only [List.cons_append, stripCS, if_pos rfl]
    exact ih r

theorem lowerStr_length (s : Str) : (lowerStr s).length = s.length :=
  List.length_map s lowerChar

theorem take_of_append_left {α : Type} (a b : List α) (n : Nat)
    (hn : n ≤ a.length) : (a ++ b).take n = a.take n := by
  rw [List.take_append_eq_append_take, Nat.sub_eq_zero_of_le hn,
    List.take_zero, List.append_nil]

theorem stripCI_take_agree {l₁ l₂ s r₁ r₂ : Str} {n : Nat}
    (h₁ : stripCI l₁ s = some r₁) (h₂ : stripCI l₂ s = some r₂)
    (hn₁ : n ≤ l₁.length) (hn₂ : n ≤ l₂.length) :
    (lowerStr l₁).take n = (lowerStr l₂).take n := by
  have e₁ := stripCI_sound l₁ s r₁ h₁
  have e₂ := stripCI_sound l₂ s r₂ h₂
  have : (lowerStr l₁ ++ lowerStr r₁).take n
      = (lowerStr l₂ ++ lowerStr r₂).take n := by rw [← e₁, ← e₂]
  rwa [take_of_append_left _ _ n (by rw [lowerStr_length]; exact hn₁),
    take_of_append_left _ _ n (by rw [lowerStr_length]; exact hn₂)] at this

theorem stripCS_take_agree {l₁ l₂ s r₁ r₂ : Str} {n : Nat}
    (h₁ : stripCS l₁ s = some r₁) (h₂ : stripCS l₂ s = some r₂)
    (hn₁ : n ≤ l₁.length) (hn₂ : n ≤ l₂.length) :
    l₁.take n = l₂.take n := by
  have e₁ := stripCS_sound l₁ s r₁ h₁
  have e₂ := stripCS_sound l₂ s r₂ h₂
  have : (l₁ ++ r₁).take n = (l₂ ++ r₂).take n := by rw [← e₁, ← e₂]
  rwa [take_of_append_left _ _ n hn₁, take_of_append_left _ _ n hn₂] at this

/-- A line is never a START marker of both kinds (pattern A): the literals
diverge at the `R`/`O` after `PAW-THEME-P`. -/
theorem isStartA_excl (style theme : Str) (l : Line)
    (h₁ : isStartA style theme .pre l = true) :
    isStartA style theme .post l = false := by
  by_contra hc
  rw [Bool.not_eq_false] at hc
  rw [isStartA.eq_def] at h₁ hc
  cases ha : anchorTail stripCI style l with
  | none => rw [ha] at h₁; simp at h₁
  | some t =>
    rw [ha] at h₁ hc
    simp only at h₁ hc
    cases hb : stripCI (litStart .pre) t with
    | none => rw [hb] at h₁; simp at h₁
    | some u₁ =>
      cases hd : stripCI (litStart .post) t with
      | none => rw [hd] at hc; simp at hc
      | some u₂ =>
        have := stripCI_take_agree hb hd
          (show 12 ≤ (litStart .pre).length by decide)
          (show 12 ≤ (litStart .post).length by decide)
        exact absurd this (by decide)

/-- A line is never an END marker of both kinds (pattern A). -/
theorem isEndA_excl (style theme : Str) (l : Line)
    (h₁ : isEndA style theme .pre l = true) :
    isEndA style theme .post l = false := by
  by_contra hc
  rw [Bool.not_eq_false] at hc
  rw [isEndA.eq_def] at h₁ hc
  cases ha : anchorTail stripCI style l with
  | none => rw [ha] at h₁; simp at h₁
  | some t =>
    rw [ha] at h₁ hc
    simp only at h₁ hc
    cases hb : stripCI (litEnd .pre) t with
    | none => rw [hb] at h₁; simp at h₁
    | some u₁ =>
      cases hd : stripCI (litEnd .post) t with
      | none => rw [hd] at hc; simp at hc
      | some u₂ =>
        have := stripCI_take_agree hb hd
          (show 12 ≤ (litEnd .pre).length by decide)
          (show 12 ≤ (litEnd .post).length by decide)
        exact absurd this (by decide)

/-- A line is never a START marker of both kinds (pattern B). -/
theorem isStartB_excl (style : Str) (l : Line)
    (h₁ : isStartB style .pre l = true) :
    isStartB style .post l = false := by
  by_contra hc
  rw [Bool.not_eq_false] at hc
  rw [isStartB.eq_def] at h₁ hc
  cases ha : anchorTail stripCS style l with
  | none => rw [ha] at h₁; simp at h₁
  | some t =>
    rw [ha] at h₁ hc
    simp only [Option.isSome_iff_exists] at h₁ hc
    obtain ⟨u₁, hb⟩ := h₁
    obtain ⟨u₂, hd⟩ := hc
    have := stripCS_take_agree hb hd
      (show 12 ≤ (litStart .pre).length by decide)
      (show 12 ≤ (litStart .post).length by decide)
    exact absurd this (by decide)

/-- A line is never an END marker of both kinds (pattern B). -/
theorem isEndB_excl (style : Str) (l : Line)
    (h₁ : isEndB style .pre l = true) :
    isEndB style .post l = false := by
  by_contra hc
  rw [Bool.not_eq_false] at hc
  rw [isEndB.eq_def] at h₁ hc
  cases ha : anchorTail stripCS style l with
  | none => rw [ha] at h₁; simp at h₁
  | some t =>
    rw [ha] at h₁ hc
    simp only [Option.isSome_iff_exists] at h₁ hc
    obtain ⟨u₁, hb⟩ := h₁
    obtain ⟨u₂, hd⟩ := hc
    have := stripCS_take_agree hb hd
      (show 12 ≤ (litEnd .pre).length by decide)
      (show 12 ≤ (litEnd .post).length by decide)
    exact absurd this (by decide)

end PatchEngineLemmas

section PatchEngineLemmas2

theorem lowerStr_append (a b : Str) :
    lowerStr (a ++ b) = lowerStr a ++ lowerStr b := by
  unfold lowerStr
  exact List.map_append lowerChar a b

theorem stripCI_append_ne (lit M : Str) (n : Nat)
    (hn₁ : n ≤ lit.length) (hn₂ : n ≤ M.length)
    (hne : (lowerStr M).take n ≠ (lowerStr lit).take n) (R : Str) :
    stripCI lit (M ++ R) = none := by
  cases h : stripCI lit (M ++ R) with
  | none => rfl
  | some r =>
    have e := stripCI_sound lit _ r h
    rw [lowerStr_append] at e
    have := congrArg (List.take n) e
    rw [take_of_append_left _ _ n (by rw [lowerStr_length]; exact hn₂),
      take_of_append_left _ _ n (by rw [lowerStr_length]; exact hn₁)] at this
    exact absurd this hne

theorem anchorTail_gen (strip : Str → Str → Option Str)
    (hrefl : ∀ l r, strip l (l ++ r) = some r)
    (sc : Char) (st : Str) (hsc : pyIsSpace sc = false)
    (m : Char) (M : Str) (hm : pyIsSpace m = false) :
    anchorTail strip (sc :: st) ((sc :: st) ++ ' ' :: m :: M) = some (m :: M) := by
  unfold anchorTail
  rw [List.cons_append, List.dropWhile_cons, if_neg (by rw [hsc]; simp),
    ← List.cons_append, hrefl]
  simp only
  rw [if_pos (by decide), List.dropWhile_cons, if_neg (by rw [hm]; simp)]

theorem themeAfterWsCI_self (theme : Str) : themeAfterWsCI theme theme = true := by
  cases theme with
  | nil => rfl
  | cons c t =>
    have hs : stripCI (c :: t) (c :: t) = some [] := by
      have := stripCI_refl (c :: t) []
      rwa [List.append_nil] at this
    simp [themeAfterWsCI, hs]

theorem themeAfterWsCI_sp (theme : Str) :
    themeAfterWsCI theme (' ' :: theme) = true := by
  rw [themeAfterWsCI]
  rw [themeAfterWsCI_self]
  simp [pyIsSpace]

theorem themeWsEndCI_self (theme : Str) : themeWsEndCI theme theme = true := by
  cases theme with
  | nil => rfl
  | cons c t =>
    have hs : stripCI (c :: t) (c :: t) = some [] := by
      have := stripCI_refl (c :: t) []
      rwa [List.append_nil] at this
    rw [themeWsEndCI, hs]
    simp [lineIsBlank]

theorem themeWsEndCI_sp (theme : Str) :
    themeWsEndCI theme (' ' :: theme) = true := by
  rw [themeWsEndCI]
  rw [themeWsEndCI_self]
  simp [pyIsSpace]

/-- The START marker line written by `apply_to_file`. -/
def genStartLine (style theme : Str) (K : MKind) : Line :=
  style ++ ' ' :: (litStart K ++ ' ' :: theme)

/-- The END marker line written by `apply_to_file`. -/
def genEndLine (style theme : Str) (K : MKind) : Line :=
  style ++ ' ' :: (litEnd K ++ ' ' :: theme)

theorem litStart_cons (K : MKind) (x : Str) :
    litStart K ++ x = (litStart K).headI :: ((litStart K).tail ++ x) := by
  cases K <;> rfl

theorem litEnd_cons (K : MKind) (x : Str) :
    litEnd K ++ x = (litEnd K).headI :: ((litEnd K).tail ++ x) := by
  cases K <;> rfl

theorem isStartA_gen (sc : Char) (st theme : Str) (hsc : pyIsSpace sc = false)
    (K : MKind) :
    isStartA (sc :: st) theme K (genStartLine (sc :: st) theme K) = true := by
  rw [isStartA.eq_def]
  unfold genStartLine
  rw [litStart_cons K (' ' :: theme)]
  simp only [anchorTail_gen stripCI stripCI_refl sc st hsc
    (litStart K).headI ((litStart K).tail ++ ' ' :: theme)
    (by cases K <;> decide)]
  rw [← litStart_cons K (' ' :: theme)]
  simp only [stripCI_refl]
  exact themeAfterWsCI_sp theme

theorem isEndA_gen (sc : Char) (st theme : Str) (hsc : pyIsSpace sc = false)
    (K : MKind) :
    isEndA (sc :: st) theme K (genEndLine (sc :: st) theme K) = true := by
  rw [isEndA.eq_def]
  unfold genEndLine
  rw [litEnd_cons K (' ' :: theme)]
  simp only [anchorTail_gen stripCI stripCI_refl sc st hsc
    (litEnd K).headI ((litEnd K).tail ++ ' ' :: theme)
    (by cases K <;> decide)]
  rw [← litEnd_cons K (' ' :: theme)]
  simp only [stripCI_refl]
  exact themeWsEndCI_sp theme

theorem isStartA_mismatch (sc : Char) (st theme : Str) (hsc : pyIsSpace sc = false)
    (K : MKind) (m : Char) (M rest : Str) (hm : pyIsSpace m = false)
    (n : Nat) (hn₁ : n ≤ (litStart K).length) (hn₂ : n ≤ (m :: M).length)
    (hne : (lowerStr (m :: M)).take n ≠ (lowerStr (litStart K)).take n) :
    isStartA (sc :: st) theme K ((sc :: st) ++ ' ' :: ((m :: M) ++ rest)) = false := by
  rw [isStartA.eq_def]
  rw [show (m :: M) ++ rest = m :: (M ++ rest) from rfl]
  simp only [anchorTail_gen stripCI stripCI_refl sc st hsc m (M ++ rest) hm]
  rw [show m :: (M ++ rest) = (m :: M) ++ rest from rfl]
  simp only [stripCI_append_ne (litStart K) (m :: M) n hn₁ hn₂ hne rest]

theorem isEndA_mismatch (sc : Char) (st theme : Str) (hsc : pyIsSpace sc = false)
    (K : MKind) (m : Char) (M rest : Str) (hm : pyIsSpace m = false)
    (n : Nat) (hn₁ : n ≤ (litEnd K).length) (hn₂ : n ≤ (m :: M).length)
    (hne : (lowerStr (m :: M)).take n ≠ (lowerStr (litEnd K)).take n) :
    isEndA (sc :: st) theme K ((sc :: st) ++ ' ' :: ((m :: M) ++ rest)) = false := by
  rw [isEndA.eq_def]
  rw [show (m :: M) ++ rest = m :: (M ++ rest) from rfl]
  simp only [anchorTail_gen stripCI stripCI_refl sc st hsc m (M ++ rest) hm]
  rw [show m :: (M ++ rest) = (m :: M) ++ rest from rfl]
  simp only [stripCI_append_ne (litEnd K) (m :: M) n hn₁ hn₂ hne rest]

theorem isPrefixOf_ext (p : Str) : ∀ q r, p.isPrefixOf q = true →
    p.isPrefixOf (q ++ r) = true := by
  induction p with
  | nil => intro q r _; simp [List.isPrefixOf]
  | cons c pt ih =>
    intro q r h
    cases q with
    | nil => simp [List.isPrefixOf] at h
    | cons d qt =>
      simp only [List.isPrefixOf, Bool.and_eq_true] at h ⊢
      exact ⟨h.1, ih qt r h.2⟩

theorem containsSub_append_right (a b n : Str)
    (h : containsSub b n = true) : containsSub (a ++ b) n = true := by
  induction a with
  | nil => exact h
  | cons c at' ih =>
    rw [List.cons_append, containsSub, ih]
    simp

theorem anchorTail_stripCI_decomp (style : Str) (l : Line) (t : Str)
    (h : anchorTail stripCI style l = some t) :
    ∃ a, lowerStr l = a ++ lowerStr t := by
  unfold anchorTail at h
  cases hs : stripCI style (l.dropWhile pyIsSpace) with
  | none => rw [hs] at h; simp at h
  | some r =>
    rw [hs] at h
    cases r with
    | nil => simp at h
    | cons c t₀ =>
      simp only at h
      by_cases hc : pyIsSpace c
      · rw [if_pos hc] at h
        injection h with h
        subst h
        have h1 : l = l.takeWhile pyIsSpace ++ l.dropWhile pyIsSpace :=
          (List.takeWhile_append_dropWhile pyIsSpace l).symm
        have h2 := stripCI_sound style _ _ hs
        have h3 : t₀ = t₀.takeWhile pyIsSpace ++ t₀.dropWhile pyIsSpace :=
          (List.takeWhile_append_dropWhile pyIsSpace t₀).symm
        refine ⟨lowerStr (l.takeWhile pyIsSpace) ++ lowerStr style
          ++ [lowerChar c] ++ lowerStr (t₀.takeWhile pyIsSpace), ?_⟩
        have h4 : lowerStr t₀ = lowerStr (t₀.takeWhile pyIsSpace)
            ++ lowerStr (t₀.dropWhile pyIsSpace) := by
          conv_lhs => rw [h3]
          exact lowerStr_append _ _
        conv_lhs => rw [h1]
        rw [lowerStr_append, h2,
          show lowerStr (c :: t₀) = lowerChar c :: lowerStr t₀ from rfl, h4]
        simp [List.append_assoc]
      · rw [if_neg hc] at h
        simp at h

theorem containsPT_of_anchorCI (style lit : Str) (l : Line) (t u : Str)
    (ha : anchorTail stripCI style l = some t) (hb : stripCI lit t = some u)
    (hp : (lowerStr pawThemeLit).isPrefixOf (lowerStr lit) = true) :
    containsSubCI l pawThemeLit = true := by
  obtain ⟨a, hdec⟩ := anchorTail_stripCI_decomp style l t ha
  have hsound := stripCI_sound lit t u hb
  unfold containsSubCI
  rw [hdec]
  apply containsSub_append_right
  rw [hsound]
  exact containsSub_of_isPrefixOf _ _ (isPrefixOf_ext _ _ _ hp)

theorem isStartA_noPT (style theme : Str) (K : MKind) (l : Line)
    (h : containsSubCI l pawThemeLit = false) :
    isStartA style theme K l = false := by
  by_contra hc
  rw [Bool.not_eq_false, isStartA.eq_def] at hc
  cases ha : anchorTail stripCI style l with
  | none => rw [ha] at hc; simp at hc
  | some t =>
    rw [ha] at hc
    simp only at hc
    cases hb : stripCI (litStart K) t with
    | none => rw [hb] at hc; simp at hc
    | some u =>
      have := containsPT_of_anchorCI style (litStart K) l t u ha hb
        (by cases K <;> decide)
      rw [this] at h
      exact absurd h (by simp)

theorem isEndA_noPT (style theme : Str) (K : MKind) (l : Line)
    (h : containsSubCI l pawThemeLit = false) :
    isEndA style theme K l = false := by
  by_contra hc
  rw [Bool.not_eq_false, isEndA.eq_def] at hc
  cases ha : anchorTail stripCI style l with
  | none => rw [ha] at hc; simp at hc
  | some t =>
    rw [ha] at hc
    simp only at hc
    cases hb : stripCI (litEnd K) t with
    | none => rw [hb] at hc; simp at hc
    | some u =>
      have := containsPT_of_anchorCI style (litEnd K) l t u ha hb
        (by cases K <;> decide)
      rw [this] at h
      exact absurd h (by simp)

end PatchEngineLemmas2

section PatchEngineLemmas3

theorem startKind_isStart (sp : MatcherSpec) (l : Line) (K : MKind)
    (h : startKind sp l = some K) : sp.isStart K l = true := by
  unfold startKind at h
  cases h1 : sp.isStart .pre l with
  | true =>
    simp only [h1, if_true] at h
    injection h with h
    rw [← h]
    exact h1
  | false =>
    simp only [h1, Bool.false_eq_true, if_false] at h
    cases h2 : sp.isStart .post l with
    | true =>
      simp only [h2, if_true] at h
      injection h with h
      rw [← h]
      exact h2
    | false =>
      simp only [h2, Bool.false_eq_true, if_false] at h
      cases h

theorem startKind_none_pre (sp : MatcherSpec) (l : Line)
    (h1 : sp.isStart .pre l = false) (h2 : sp.isStart .post l = false) :
    startKind sp l = none := by
  unfold startKind
  simp [h1, h2]

theorem dropThroughEnd_isEnd (sp : MatcherSpec) (K : MKind) :
    ∀ ls e rest, dropThroughEnd sp K ls = some (e, rest) →
      sp.isEnd K e = true := by
  intro ls
  induction ls with
  | nil => intro e rest h; simp [dropThroughEnd] at h
  | cons l t ih =>
    intro e rest h
    rw [dropThroughEnd] at h
    cases hb : sp.isEnd K l with
    | true =>
      simp only [hb, if_true] at h
      injection h with h
      rw [show l = e from congrArg Prod.fst h] at hb
      exact hb
    | false =>
      simp only [hb, Bool.false_eq_true, if_false] at h
      exact ih e rest h

theorem dropThroughEnd_calc (sp : MatcherSpec) (K : MKind) :
    ∀ A, (∀ l ∈ A, sp.isEnd K l = false) → ∀ e rest, sp.isEnd K e = true →
      dropThroughEnd sp K (A ++ e :: rest) = some (e, rest) := by
  intro A
  induction A with
  | nil => intro _ e rest he; simp [dropThroughEnd, he]
  | cons x t ih =>
    intro hA e rest he
    rw [List.cons_append, dropThroughEnd]
    simp only [hA x (List.mem_cons_self x t), Bool.false_eq_true, if_false]
    exact ih (fun l hl => hA l (List.mem_cons_of_mem x hl)) e rest he

theorem startEnd_of_none (sp : MatcherSpec) (l : Line) (rest : List Line)
    (h : startKind sp l = none) : startEnd sp l rest = none := by
  unfold startEnd
  rw [h]

theorem startEnd_spec (sp : MatcherSpec) (l : Line) (rest : List Line)
    (K : MKind) (e : Line) (after : List Line)
    (h : startEnd sp l rest = some (K, e, after)) :
    startKind sp l = some K ∧ sp.isEnd K e = true := by
  unfold startEnd at h
  cases hk : startKind sp l with
  | none => simp only [hk] at h; exact absurd h (by simp)
  | some K₀ =>
    simp only [hk] at h
    cases hd : dropThroughEnd sp K₀ rest with
    | none => simp only [hd, Option.map_none'] at h; exact absurd h (by simp)
    | some p =>
      simp only [hd, Option.map_some', Option.some.injEq, Prod.mk.injEq] at h
      obtain ⟨hK, he, ha⟩ := h
      rw [← hK, ← he]
      exact ⟨rfl, dropThroughEnd_isEnd sp K₀ rest p.1 p.2 (by rw [hd])⟩

theorem startEnd_calc (sp : MatcherSpec) (l : Line) (rest : List Line)
    (K : MKind) (hk : startKind sp l = some K) (e : Line) (after : List Line)
    (hd : dropThroughEnd sp K rest = some (e, after)) :
    startEnd sp l rest = some (K, e, after) := by
  unfold startEnd
  simp only [hk, hd, Option.map_some']

theorem leadsToStart_spec (sp : MatcherSpec) :
    ∀ ls K s e after, leadsToStart sp ls = some (K, s, e, after) →
      startKind sp s = some K ∧ sp.isEnd K e = true := by
  intro ls
  induction ls with
  | nil => intro K s e after h; simp [leadsToStart] at h
  | cons l t ih =>
    intro K s e after h
    rw [leadsToStart] at h
    cases hse : startEnd sp l t with
    | some q =>
      obtain ⟨K₀, e₀, after₀⟩ := q
      simp only [hse, Option.some.injEq, Prod.mk.injEq] at h
      obtain ⟨hK, hs, he, ha⟩ := h
      rw [← hK, ← hs, ← he]
      exact startEnd_spec sp l t K₀ e₀ after₀ hse
    | none =>
      simp only [hse] at h
      cases hbl : lineIsBlank l with
      | true => simp only [hbl, if_true] at h; exact ih K s e after h
      | false =>
        simp only [hbl, Bool.false_eq_true, if_false] at h
        exact absurd h (by simp)

theorem findM_spec (sp : MatcherSpec) :
    ∀ ls pref K s e after, findM sp ls = some (pref, K, s, e, after) →
      startKind sp s = some K ∧ sp.isEnd K e = true := by
  intro ls
  induction ls with
  | nil => intro pref K s e after h; simp [findM] at h
  | cons l t ih =>
    intro pref K s e after h
    rw [findM] at h
    cases hse : startEnd sp l t with
    | some q =>
      obtain ⟨K₀, e₀, after₀⟩ := q
      simp only [hse, Option.some.injEq, Prod.mk.injEq] at h
      obtain ⟨hp, hK, hs, he, ha⟩ := h
      rw [← hK, ← hs, ← he]
      exact startEnd_spec sp l t K₀ e₀ after₀ hse
    | none =>
      simp only [hse] at h
      cases hlt : (if lineIsBlank l then leadsToStart sp t else none) with
      | some q =>
        obtain ⟨K₀, s₀, e₀, after₀⟩ := q
        simp only [hlt, Option.some.injEq, Prod.mk.injEq] at h
        obtain ⟨hp, hK, hs, he, ha⟩ := h
        rw [← hK, ← hs, ← he]
        cases hbl : lineIsBlank l with
        | true =>
          rw [hbl] at hlt
          simp only [if_true] at hlt
          exact leadsToStart_spec sp t K₀ s₀ e₀ after₀ hlt
        | false => rw [hbl] at hlt; simp at hlt
      | none =>
        simp only [hlt] at h
        cases hf : findM sp t with
        | none => simp only [hf, Option.map_none'] at h; exact absurd h (by simp)
        | some p =>
          obtain ⟨pref₀, K₀, s₀, e₀, after₀⟩ := p
          simp only [hf, Option.map_some', Option.some.injEq, Prod.mk.injEq] at h
          obtain ⟨hp, hK, hs, he, ha⟩ := h
          rw [← hK, ← hs, ← he]
          exact ih pref₀ K₀ s₀ e₀ after₀ hf

end PatchEngineLemmas3

section PatchEngineLemmas4

theorem leadsToStart_none_all (sp : MatcherSpec) :
    ∀ ls, (∀ l ∈ ls, startKind sp l = none) → leadsToStart sp ls = none := by
  intro ls
  induction ls with
  | nil => intro _; rfl
  | cons l t ih =>
    intro h
    rw [leadsToStart,
      startEnd_of_none sp l t (h l (List.mem_cons_self l t))]
    simp only
    cases hbl : lineIsBlank l with
    | true =>
      simp only [if_true]
      exact ih (fun x hx => h x (List.mem_cons_of_mem l hx))
    | false => simp

theorem leadsToStart_blocked (sp : MatcherSpec) :
    ∀ A B, (∀ l ∈ A, startKind sp l = none) →
      (∃ l ∈ A, lineIsBlank l = false) → leadsToStart sp (A ++ B) = none := by
  intro A
  induction A with
  | nil => intro B _ hex; simp at hex
  | cons x t ih =>
    intro B hA hex
    rw [List.cons_append, leadsToStart,
      startEnd_of_none sp x (t ++ B) (hA x (List.mem_cons_self x t))]
    simp only
    cases hbl : lineIsBlank x with
    | false => simp
    | true =>
      simp only [if_true]
      obtain ⟨y, hy, hyb⟩ := hex
      have hyt : y ∈ t := by
        cases List.mem_cons.mp hy with
        | inl h => rw [h] at hyb; rw [hyb] at hbl; cases hbl
        | inr h => exact h
      exact ih B (fun l hl => hA l (List.mem_cons_of_mem x hl)) ⟨y, hyt, hyb⟩

theorem findM_none (sp : MatcherSpec) :
    ∀ ls, (∀ l ∈ ls, startKind sp l = none) → findM sp ls = none := by
  intro ls
  induction ls with
  | nil => intro _; rfl
  | cons l t ih =>
    intro h
    rw [findM, startEnd_of_none sp l t (h l (List.mem_cons_self l t))]
    simp only
    have hrest : ∀ x ∈ t, startKind sp x = none :=
      fun x hx => h x (List.mem_cons_of_mem l hx)
    rw [show (if lineIsBlank l then leadsToStart sp t else none) = none from by
      cases hbl : lineIsBlank l with
      | true => simp only [if_true]; exact leadsToStart_none_all sp t hrest
      | false => simp]
    simp only [ih hrest, Option.map_none']

theorem findM_calc_start (sp : MatcherSpec) (l : Line) (rest : List Line)
    (K : MKind) (e : Line) (after : List Line)
    (h : startEnd sp l rest = some (K, e, after)) :
    findM sp (l :: rest) = some ([], K, l, e, after) := by
  rw [findM, h]

theorem leadsToStart_calc_start (sp : MatcherSpec) (l : Line) (rest : List Line)
    (K : MKind) (e : Line) (after : List Line)
    (h : startEnd sp l rest = some (K, e, after)) :
    leadsToStart sp (l :: rest) = some (K, l, e, after) := by
  rw [leadsToStart, h]

theorem leadsToStart_calc_blank (sp : MatcherSpec) (l : Line) (rest : List Line)
    (hse : startEnd sp l rest = none) (hbl : lineIsBlank l = true) :
    leadsToStart sp (l :: rest) = leadsToStart sp rest := by
  rw [leadsToStart, hse]
  simp only [hbl, if_true]

theorem findM_calc_blank (sp : MatcherSpec) (l : Line) (rest : List Line)
    (hse : startEnd sp l rest = none) (hbl : lineIsBlank l = true)
    (K : MKind) (s e : Line) (after : List Line)
    (hl : leadsToStart sp rest = some (K, s, e, after)) :
    findM sp (l :: rest) = some ([], K, s, e, after) := by
  rw [findM, hse]
  simp only [hbl, if_true, hl]

theorem findM_calc_keep (sp : MatcherSpec) (l : Line) (rest : List Line)
    (hse : startEnd sp l rest = none)
    (hno : lineIsBlank l = false ∨ leadsToStart sp rest = none) :
    findM sp (l :: rest) = (findM sp rest).map (fun p => (l :: p.1, p.2)) := by
  rw [findM, hse]
  simp only
  rw [show (if lineIsBlank l then leadsToStart sp rest else none) = none from by
    cases hno with
    | inl h => simp [h]
    | inr h =>
      cases hbl : lineIsBlank l with
      | true => simp only [if_true]; exact h
      | false => simp]

theorem findM_calc_append (sp : MatcherSpec) :
    ∀ A B, (∀ l ∈ A, startKind sp l = none) →
      (A = [] ∨ ∃ A₀ x, A = A₀ ++ [x] ∧ lineIsBlank x = false) →
      findM sp (A ++ B) = (findM sp B).map (fun p => (A ++ p.1, p.2)) := by
  intro A
  induction A with
  | nil =>
    intro B _ _
    simp only [List.nil_append]
    cases h : findM sp B with
    | none => rfl
    | some p =>
      obtain ⟨a, b, c, d, e⟩ := p
      simp
  | cons x t ih =>
    intro B hA hEnd
    have hEnd' : t = [] ∨ ∃ A₀ y, t = A₀ ++ [y] ∧ lineIsBlank y = false := by
      cases hEnd with
      | inl h => cases h
      | inr h =>
        obtain ⟨A₀, y, hAy, hy⟩ := h
        cases A₀ with
        | nil =>
          left
          have := congrArg List.tail hAy
          simpa using this
        | cons a A₀t =>
          right
          refine ⟨A₀t, y, ?_, hy⟩
          have := congrArg List.tail hAy
          simpa using this
    have hxno : startEnd sp x (t ++ B) = none :=
      startEnd_of_none sp x (t ++ B) (hA x (List.mem_cons_self x t))
    have hstep : findM sp (x :: (t ++ B))
        = (findM sp (t ++ B)).map (fun p => (x :: p.1, p.2)) := by
      apply findM_calc_keep sp x (t ++ B) hxno
      cases hbl : lineIsBlank x with
      | false => exact Or.inl rfl
      | true =>
        right
        cases hEnd with
        | inl h => cases h
        | inr h =>
          obtain ⟨A₀, y, hAy, hy⟩ := h
          cases A₀ with
          | nil =>
            exfalso
            have hx : x = y := by
              have := congrArg List.headI hAy
              simpa using this
            rw [hx] at hbl
            rw [hbl] at hy
            cases hy
          | cons a A₀t =>
            have ht : t = A₀t ++ [y] := by
              have := congrArg List.tail hAy
              simpa using this
            apply leadsToStart_blocked sp t B
              (fun l hl => hA l (List.mem_cons_of_mem x hl))
            exact ⟨y, by rw [ht]; simp, hy⟩
    rw [List.cons_append, hstep,
      ih B (fun l hl => hA l (List.mem_cons_of_mem x hl)) hEnd']
    cases h : findM sp B with
    | none => rfl
    | some p => simp

theorem takeDropWhile_calc {α : Type} (p : α → Bool) :
    ∀ (A : List α) (x : α) (r : List α), (∀ a ∈ A, p a = true) → p x = false →
      (A ++ x :: r).takeWhile p = A ∧ (A ++ x :: r).dropWhile p = x :: r := by
  intro A
  induction A with
  | nil =>
    intro x r _ hx
    constructor
    · rw [List.nil_append, List.takeWhile_cons, hx]; simp
    · rw [List.nil_append, List.dropWhile_cons, hx]; simp
  | cons a t ih =>
    intro x r hA hx
    obtain ⟨h1, h2⟩ := ih x r (fun b hb => hA b (List.mem_cons_of_mem a hb)) hx
    constructor
    · rw [List.cons_append, List.takeWhile_cons, hA a (List.mem_cons_self a t)]
      simp only [if_true]
      rw [h1]
    · rw [List.cons_append, List.dropWhile_cons, hA a (List.mem_cons_self a t)]
      simp only [if_true]
      exact h2

theorem contA_none_of_blanks (after : List Line)
    (h : ∀ l ∈ after, lineIsBlank l = true) : contA after = none := by
  unfold contA
  rw [show after.dropWhile lineIsBlank = [] from List.dropWhile_eq_nil_iff.mpr h]

theorem contA_calc (bl : List Line) (x : Line) (r : List Line)
    (hbl : ∀ l ∈ bl, lineIsBlank l = true) (hlast : bl.getLast? = some [])
    (hx : lineIsBlank x = false) :
    contA (bl ++ x :: r) = some (false, [] :: x :: r) := by
  obtain ⟨h1, h2⟩ := takeDropWhile_calc lineIsBlank bl x r hbl hx
  unfold contA
  rw [h2]
  simp only
  rw [h1, hlast]

theorem subGo_none (sp : MatcherSpec) (fuel : Nat) (ls : List Line)
    (h : findM sp ls = none) : subGo sp fuel ls = ls := by
  cases fuel with
  | zero => rfl
  | succ n => rw [subGo, h]

theorem subGo_eof (sp : MatcherSpec) (fuel : Nat) (ls pref : List Line)
    (K : MKind) (s e : Line) (after : List Line)
    (h : findM sp ls = some (pref, K, s, e, after))
    (habs : sp.absorbTrail = true) (hc : contA after = none) :
    subGo sp (fuel + 1) ls = pref ++ [[]] := by
  rw [subGo, h]
  simp only [habs, if_true, hc]

theorem subGo_scan (sp : MatcherSpec) (fuel : Nat) (ls pref : List Line)
    (K : MKind) (s e : Line) (after rest : List Line)
    (h : findM sp ls = some (pref, K, s, e, after))
    (habs : sp.absorbTrail = true) (hc : contA after = some (false, rest)) :
    subGo sp (fuel + 1) ls = pref ++ subGo sp fuel rest := by
  rw [subGo, h]
  simp only [habs, if_true, hc]

theorem subGo_emit (sp : MatcherSpec) (fuel : Nat) (ls pref : List Line)
    (K : MKind) (s e : Line) (after rest : List Line)
    (h : findM sp ls = some (pref, K, s, e, after))
    (habs : sp.absorbTrail = true) (hc : contA after = some (true, rest)) :
    subGo sp (fuel + 1) ls = pref ++ [[]] ++ subGo sp fuel rest := by
  rw [subGo, h]
  simp only [habs, if_true, hc]

theorem removedSpansGo_spec (sp : MatcherSpec) :
    ∀ fuel ls K s e, (K, s, e) ∈ removedSpansGo sp fuel ls →
      sp.isStart K s = true ∧ sp.isEnd K e = true := by
  intro fuel
  induction fuel with
  | zero => intro ls K s e h; simp [removedSpansGo] at h
  | succ n ih =>
    intro ls K s e h
    rw [removedSpansGo] at h
    cases hf : findM sp ls with
    | none => rw [hf] at h; simp at h
    | some q =>
      obtain ⟨pref, K₀, s₀, e₀, after⟩ := q
      simp only [hf, List.mem_cons] at h
      cases h with
      | inl heq =>
        have hK : K = K₀ := congrArg Prod.fst heq
        have h2 := congrArg Prod.snd heq
        have hs : s = s₀ := congrArg Prod.fst h2
        have he : e = e₀ := congrArg Prod.snd h2
        rw [hK, hs, he]
        have hspec := findM_spec sp ls pref K₀ s₀ e₀ after hf
        exact ⟨startKind_isStart sp s₀ K₀ hspec.1, hspec.2⟩
      | inr hmem =>
        cases habs : sp.absorbTrail with
        | false =>
          rw [habs] at hmem
          simp only [Bool.false_eq_true, if_false] at hmem
          exact ih after K s e hmem
        | true =>
          rw [habs] at hmem
          simp only [if_true] at hmem
          cases hc : contA after with
          | none => rw [hc] at hmem; simp at hmem
          | some pr =>
            rw [hc] at hmem
            simp only at hmem
            exact ih pr.2 K s e hmem

end PatchEngineLemmas4

/-- C3: for every input text, both marker-removal regexes (the per-theme
pattern of `PatchEngine.apply_to_file` and the any-theme pattern of
`SelectiveThemeManager._clean_old_patches_from_file`) delete only spans
whose first marker line is a `PAW-THEME-(PRE|POST)-START` marker and whose
closing line is the `PAW-THEME-…-END` marker of the *same* kind; thanks to
the back-reference `\1`, no removed span pairs a PRE-START with a POST-END
or a POST-START with a PRE-END. -/
theorem C3_removal_spans_marker_paired (style theme content : Str) :
    (∀ K s e, (K, s, e) ∈ removedSpans (specA style theme) content →
      (isStartA style theme K s = true ∧ isEndA style theme K e = true) ∧
      ¬(isStartA style theme .pre s = true ∧ isEndA style theme .post e = true) ∧
      ¬(isStartA style theme .post s = true ∧ isEndA style theme .pre e = true)) ∧
    (∀ K s e, (K, s, e) ∈ removedSpans (specB style) content →
      (isStartB style K s = true ∧ isEndB style K e = true) ∧
      ¬(isStartB style .pre s = true ∧ isEndB style .post e = true) ∧
      ¬(isStartB style .post s = true ∧ isEndB style .pre e = true)) := by
  constructor
  · intro K s e h
    have hspec := removedSpansGo_spec (specA style theme) _ _ K s e h
    refine ⟨⟨hspec.1, hspec.2⟩, ?_, ?_⟩
    · rintro ⟨ha, hb⟩
      cases K with
      | pre =>
        have hf := isEndA_excl style theme e hspec.2
        rw [hf] at hb
        exact absurd hb (by simp)
      | post =>
        have hf := isStartA_excl style theme s ha
        have h1 : isStartA style theme .post s = true := hspec.1
        rw [hf] at h1
        exact absurd h1 (by simp)
    · rintro ⟨ha, hb⟩
      cases K with
      | pre =>
        have hf := isStartA_excl style theme s hspec.1
        rw [hf] at ha
        exact absurd ha (by simp)
      | post =>
        have hf := isEndA_excl style theme e hb
        have h2 : isEndA style theme .post e = true := hspec.2
        rw [hf] at h2
        exact absurd h2 (by simp)
  · intro K s e h
    have hspec := removedSpansGo_spec (specB style) _ _ K s e h
    refine ⟨⟨hspec.1, hspec.2⟩, ?_, ?_⟩
    · rintro ⟨ha, hb⟩
      cases K with
      | pre =>
        have hf := isEndB_excl style e hspec.2
        rw [hf] at hb
        exact absurd hb (by simp)
      | post =>
        have hf := isStartB_excl style s ha
        have h1 : isStartB style .post s = true := hspec.1
        rw [hf] at h1
        exact absurd h1 (by simp)
    · rintro ⟨ha, hb⟩
      cases K with
      | pre =>
        have hf := isStartB_excl style s hspec.1
        rw [hf] at ha
        exact absurd ha (by simp)
      | post =>
        have hf := isEndB_excl style e hb
        have h2 : isEndB style .post e = true := hspec.2
        rw [hf] at h2
        exact absurd h2 (by simp)

/-- Witness for C3 at a concrete file: the span removed from a file holding
one PRE block is delimited by its PRE-START and PRE-END marker lines. -/
theorem C3_removal_spans_marker_paired_witness :
    isStartA "#".toList "T".toList .pre "# PAW-THEME-PRE-START: T".toList = true ∧
    isEndA "#".toList "T".toList .pre "# PAW-THEME-PRE-END: T".toList = true := by
  have h := (C3_removal_spans_marker_paired "#".toList "T".toList
    "keep\n# PAW-THEME-PRE-START: T\nbody\n# PAW-THEME-PRE-END: T\ntail\n".toList).1
    .pre "# PAW-THEME-PRE-START: T".toList "# PAW-THEME-PRE-END: T".toList
    (by decide)
  exact h.1

section PatchEngineLemmas5

theorem pyLStrip_cons_nonws (c : Char) (s : Str) (hc : pyIsSpace c = false) :
    pyLStrip (c :: s) = c :: s := by
  unfold pyLStrip
  rw [List.dropWhile_cons, hc]
  simp

theorem pyRStrip_snoc_nonws (s : Str) (c : Char) (hc : pyIsSpace c = false) :
    pyRStrip (s ++ [c]) = s ++ [c] := by
  unfold pyRStrip
  rw [List.reverse_append, List.reverse_cons, List.reverse_nil,
    List.nil_append, List.cons_append, List.nil_append,
    List.dropWhile_cons, hc]
  simp

theorem pyRStrip_snoc_ws (s : Str) (c : Char) (hc : pyIsSpace c = true) :
    pyRStrip (s ++ [c]) = pyRStrip s := by
  unfold pyRStrip
  rw [List.reverse_append, List.reverse_cons, List.reverse_nil,
    List.nil_append, List.cons_append, List.nil_append,
    List.dropWhile_cons, hc]
  simp

theorem dropWhile_head_neg {α : Type} (p : α → Bool) :
    ∀ (l : List α) (c : α) (t : List α), l.dropWhile p = c :: t → p c = false := by
  intro l
  induction l with
  | nil => intro c t h; simp [List.dropWhile] at h
  | cons a r ih =>
    intro c t h
    rw [List.dropWhile_cons] at h
    cases ha : p a with
    | true => rw [ha] at h; simp only [if_true] at h; exact ih c t h
    | false =>
      rw [ha] at h
      simp only [Bool.false_eq_true, if_false] at h
      injection h with h1 h2
      rw [← h1]
      exact ha

theorem pyRStrip_front (s : Str) : ∃ b, s = pyRStrip s ++ b := by
  unfold pyRStrip
  refine ⟨(s.reverse.takeWhile pyIsSpace).reverse, ?_⟩
  have h := List.takeWhile_append_dropWhile pyIsSpace s.reverse
  have h2 := congrArg List.reverse h
  rw [List.reverse_append] at h2
  rw [h2]
  simp

theorem pyStrip_head_nonws (s : Str) (c : Char) (t : Str)
    (h : pyStrip s = c :: t) : pyIsSpace c = false := by
  unfold pyStrip at h
  obtain ⟨b, hb⟩ := pyRStrip_front (pyLStrip s)
  rw [h] at hb
  unfold pyLStrip at hb
  exact dropWhile_head_neg pyIsSpace s c (t ++ b) hb

theorem pyStrip_last_nonws (s : Str) (c : Char) (t : Str)
    (h : pyStrip s = t ++ [c]) : pyIsSpace c = false := by
  unfold pyStrip pyRStrip at h
  have h2 := congrArg List.reverse h
  rw [List.reverse_reverse, List.reverse_append] at h2
  simp only [List.reverse_cons, List.reverse_nil, List.nil_append] at h2
  exact dropWhile_head_neg pyIsSpace (pyLStrip s).reverse c t.reverse h2

theorem pyStrip_idem (s : Str) : pyStrip (pyStrip s) = pyStrip s := by
  cases hs : pyStrip s with
  | nil => rfl
  | cons c t =>
    have hc := pyStrip_head_nonws s c t hs
    unfold pyStrip
    rw [pyLStrip_cons_nonws c t hc]
    rcases List.eq_nil_or_concat (c :: t) with h | ⟨L, b, hL⟩
    · cases h
    · rw [List.concat_eq_append] at hL
      rw [hL]
      apply pyRStrip_snoc_nonws
      exact pyStrip_last_nonws s b L (by rw [hs, hL])

theorem pyLStrip_append_nonnil (s x : Str) (h : pyLStrip s ≠ []) :
    pyLStrip (s ++ x) = pyLStrip s ++ x := by
  unfold pyLStrip at h ⊢
  induction s with
  | nil => simp at h
  | cons c t ih =>
    rw [List.cons_append, List.dropWhile_cons, List.dropWhile_cons]
    cases hc : pyIsSpace c with
    | true =>
      simp only [if_true]
      rw [List.dropWhile_cons, hc] at h
      simp only [if_true] at h
      exact ih h
    | false => simp

theorem pyLStrip_all_ws (s : Str) (h : pyLStrip s = []) (x : Str) :
    pyLStrip (s ++ x) = pyLStrip x := by
  unfold pyLStrip at h ⊢
  induction s with
  | nil => simp
  | cons c t ih =>
    rw [List.dropWhile_cons] at h
    cases hc : pyIsSpace c with
    | true =>
      rw [hc] at h
      simp only [if_true] at h
      rw [List.cons_append, List.dropWhile_cons, hc]
      simp only [if_true]
      exact ih h
    | false => rw [hc] at h; simp at h

/-- `("\n" ++ x ++ "\n").strip() = x.strip()`. -/
theorem pyStrip_wrap (x : Str) :
    pyStrip ('\n' :: x ++ ['\n']) = pyStrip x := by
  unfold pyStrip
  rw [show ('\n' :: x ++ ['\n']) = ('\n' :: x) ++ ['\n'] from by simp]
  have h1 : pyLStrip ('\n' :: x) = pyLStrip x := by
    unfold pyLStrip
    rw [List.dropWhile_cons]
    simp [pyIsSpace]
  cases he : pyLStrip x with
  | nil =>
    rw [pyLStrip_all_ws ('\n' :: x) (by rw [h1, he]) ['\n']]
    rfl
  | cons c t =>
    rw [pyLStrip_append_nonnil ('\n' :: x) ['\n'] (by rw [h1, he]; simp), h1, he,
      pyRStrip_snoc_ws (c :: t) '\n' (by decide)]

end PatchEngineLemmas5

section PatchEngineLemmas6

theorem splitLines_no_nl : ∀ s : Str, '\n' ∉ s → splitLines s = [s] := by
  intro s
  induction s with
  | nil => intro _; rfl
  | cons c t ih =>
    intro h
    have hc : c ≠ '\n' := fun he => h (by rw [he]; exact List.mem_cons_self _ _)
    rw [splitLines_cons_of_ne c t hc, ih (fun ht => h (List.mem_cons_of_mem c ht))]
    rfl

theorem lineIsBlank_cons_nonws (c : Char) (h : Str) (hc : pyIsSpace c = false) :
    lineIsBlank (c :: h) = false := by
  unfold lineIsBlank
  simp [hc]

theorem splitLines_concat_nonws (c : Char) (hc : pyIsSpace c = false) :
    ∀ w : Str, ∃ A x, splitLines (w ++ [c]) = A ++ [x] ∧ lineIsBlank x = false := by
  intro w
  induction w with
  | nil =>
    have hnl : c ≠ '\n' := fun he => by rw [he] at hc; cases hc
    refine ⟨[], [c], ?_, ?_⟩
    · rw [List.nil_append, splitLines_cons_of_ne c [] hnl]
      rfl
    · exact lineIsBlank_cons_nonws c [] hc
  | cons d w' ih =>
    obtain ⟨A, x, hsplit, hx⟩ := ih
    by_cases hd : d = '\n'
    · subst hd
      rw [List.cons_append, splitLines, if_pos rfl, hsplit]
      exact ⟨[] :: A, x, rfl, hx⟩
    · rw [List.cons_append, splitLines_cons_of_ne d _ hd, hsplit]
      cases A with
      | nil =>
        refine ⟨[], d :: x, ?_, ?_⟩
        · simp
        · unfold lineIsBlank at hx ⊢
          simp only [List.all_cons, Bool.and_eq_false_iff]
          right
          exact hx
      | cons a A' =>
        refine ⟨(d :: a) :: A', x, ?_, hx⟩
        simp

theorem splitLines_headI_first : ∀ s : Str, ∃ b, s = (splitLines s).headI ++ b := by
  intro s
  induction s with
  | nil => exact ⟨[], rfl⟩
  | cons c t ih =>
    by_cases hc : c = '\n'
    · subst hc
      rw [splitLines, if_pos rfl]
      exact ⟨'\n' :: t, rfl⟩
    · obtain ⟨b, hb⟩ := ih
      rw [splitLines_cons_of_ne c t hc]
      refine ⟨b, ?_⟩
      show c :: t = (c :: (splitLines t).headI) ++ b
      rw [List.cons_append]
      exact congrArg (c :: ·) hb

theorem splitLines_mem_parts : ∀ (s : Str) (l : Line), l ∈ splitLines s →
    ∃ a b, s = a ++ l ++ b := by
  intro s
  induction s with
  | nil =>
    intro l h
    simp [splitLines] at h
    subst h
    exact ⟨[], [], rfl⟩
  | cons c t ih =>
    intro l h
    by_cases hc : c = '\n'
    · subst hc
      rw [splitLines, if_pos rfl] at h
      cases List.mem_cons.mp h with
      | inl he => subst he; exact ⟨[], '\n' :: t, rfl⟩
      | inr hm =>
        obtain ⟨a, b, hab⟩ := ih l hm
        exact ⟨'\n' :: a, b, by rw [hab]; simp⟩
    · rw [splitLines_cons_of_ne c t hc] at h
      cases List.mem_cons.mp h with
      | inl he =>
        obtain ⟨b, hb⟩ := splitLines_headI_first t
        refine ⟨[], b, ?_⟩
        rw [he]
        show c :: t = (c :: (splitLines t).headI) ++ b
        rw [List.cons_append]
        exact congrArg (c :: ·) hb
      | inr hm =>
        obtain ⟨a, b, hab⟩ := ih l (List.mem_of_mem_tail hm)
        exact ⟨c :: a, b, by rw [hab]; simp⟩

theorem containsSub_ext_right : ∀ (l b n : Str),
    containsSub l n = true → containsSub (l ++ b) n = true := by
  intro l
  induction l with
  | nil =>
    intro b n h
    rw [containsSub] at h
    have : n = [] := by
      cases n with
      | nil => rfl
      | cons c t => simp [List.isEmpty] at h
    subst this
    cases b with
    | nil => rfl
    | cons c t =>
      rw [List.nil_append, containsSub]
      simp [List.isPrefixOf]
  | cons c t ih =>
    intro b n h
    rw [containsSub] at h
    rw [List.cons_append, containsSub]
    rcases (Bool.or_eq_true _ _).mp h with h1 | h2
    · have hp : n.isPrefixOf (c :: (t ++ b)) = true :=
        isPrefixOf_ext n (c :: t) b h1
      rw [hp]
      simp
    · rw [ih b n h2]
      simp

theorem containsSubCI_parts (s n : Str) (hs : containsSubCI s n = false)
    (a m b : Str) (hdec : s = a ++ m ++ b) : containsSubCI m n = false := by
  by_contra hc
  rw [Bool.not_eq_false] at hc
  unfold containsSubCI at hc hs
  rw [hdec, lowerStr_append, lowerStr_append] at hs
  have h2 : containsSub (lowerStr a ++ (lowerStr m ++ lowerStr b)) (lowerStr n)
      = true :=
    containsSub_append_right _ _ _
      (containsSub_ext_right (lowerStr m) (lowerStr b) (lowerStr n) hc)
  rw [← List.append_assoc] at h2
  rw [h2] at hs
  cases hs

end PatchEngineLemmas6

section PatchEngineLemmas7

theorem splitLines_nl_cons (y : Str) : splitLines ('\n' :: y) = [] :: splitLines y := by
  rw [splitLines, if_pos rfl]

theorem pyLStrip_eq_self_of_headI (x : Str) (hne : x ≠ [])
    (hh : pyIsSpace x.headI = false) : pyLStrip x = x := by
  cases x with
  | nil => exact absurd rfl hne
  | cons c t => exact pyLStrip_cons_nonws c t hh

theorem pyStrip_parts (s : Str) : ∃ a b, s = a ++ pyStrip s ++ b := by
  unfold pyStrip
  obtain ⟨b, hb⟩ := pyRStrip_front (pyLStrip s)
  refine ⟨s.takeWhile pyIsSpace, b, ?_⟩
  conv_lhs => rw [(List.takeWhile_append_dropWhile pyIsSpace s).symm]
  rw [List.append_assoc]
  unfold pyLStrip
  unfold pyLStrip at hb
  rw [← hb]

theorem startKind_calc_pre (sp : MatcherSpec) (l : Line)
    (h : sp.isStart .pre l = true) : startKind sp l = some .pre := by
  unfold startKind
  rw [h]
  simp

theorem startKind_calc_post (sp : MatcherSpec) (l : Line)
    (h1 : sp.isStart .pre l = false) (h2 : sp.isStart .post l = true) :
    startKind sp l = some .post := by
  unfold startKind
  rw [h1, h2]
  simp

theorem contA_nil : contA [] = none := rfl

theorem litStart_no_nl (K : MKind) : '\n' ∉ litStart K := by
  cases K <;> decide

theorem litEnd_no_nl (K : MKind) : '\n' ∉ litEnd K := by
  cases K <;> decide

theorem nl_not_mem_genStart (style theme : Str) (hs : '\n' ∉ style)
    (ht : '\n' ∉ theme) (K : MKind) : '\n' ∉ genStartLine style theme K := by
  unfold genStartLine
  intro h
  rcases List.mem_append.mp h with h | h
  · exact hs h
  · rcases List.mem_cons.mp h with h | h
    · cases h
    · rcases List.mem_append.mp h with h | h
      · exact litStart_no_nl K h
      · rcases List.mem_cons.mp h with h | h
        · cases h
        · exact ht h

theorem nl_not_mem_genEnd (style theme : Str) (hs : '\n' ∉ style)
    (ht : '\n' ∉ theme) (K : MKind) : '\n' ∉ genEndLine style theme K := by
  unfold genEndLine
  intro h
  rcases List.mem_append.mp h with h | h
  · exact hs h
  · rcases List.mem_cons.mp h with h | h
    · cases h
    · rcases List.mem_append.mp h with h | h
      · exact litEnd_no_nl K h
      · rcases List.mem_cons.mp h with h | h
        · cases h
        · exact ht h

theorem line_noPT (content : Str) (hno : containsSubCI content pawThemeLit = false)
    (l : Line) (hl : l ∈ splitLines content) :
    containsSubCI l pawThemeLit = false := by
  obtain ⟨a, b, hab⟩ := splitLines_mem_parts content l hl
  exact containsSubCI_parts content pawThemeLit hno a l b hab

theorem sub_noPT (s : Str) (hno : containsSubCI s pawThemeLit = false)
    (a m b : Str) (hdec : s = a ++ m ++ b) (a₂ m₂ b₂ : Str)
    (hdec₂ : m = a₂ ++ m₂ ++ b₂) : containsSubCI m₂ pawThemeLit = false :=
  containsSubCI_parts m pawThemeLit
    (containsSubCI_parts s pawThemeLit hno a m b hdec) a₂ m₂ b₂ hdec₂

theorem litP1_toList : " PAW-THEME-PRE-START: ".toList
    = ' ' :: (litStart .pre ++ [' ']) := by decide

theorem litP2_toList : " PAW-THEME-PRE-END: ".toList
    = ' ' :: (litEnd .pre ++ [' ']) := by decide

theorem litQ1_toList : " PAW-THEME-POST-START: ".toList
    = ' ' :: (litStart .post ++ [' ']) := by decide

theorem litQ2_toList : " PAW-THEME-POST-END: ".toList
    = ' ' :: (litEnd .post ++ [' ']) := by decide

theorem nlnl_toList : "\n\n".toList = ['\n', '\n'] := rfl

theorem nl_toList : "\n".toList = ['\n'] := rfl

/-- `regexSub` with the pattern of `apply_to_file` is the identity on
content free of the (case-insensitive) `PAW-THEME` literal: no line can be
a START marker. -/
theorem regexSub_specA_noPT (style theme content : Str)
    (hno : containsSubCI content pawThemeLit = false) :
    regexSub (specA style theme) content = content := by
  unfold regexSub
  rw [subGo_none _ _ _ (findM_none _ _ (fun l hl =>
    startKind_none_pre _ _
      (isStartA_noPT style theme .pre l (line_noPT content hno l hl))
      (isStartA_noPT style theme .post l (line_noPT content hno l hl))))]
  exact join_splitLines content

end PatchEngineLemmas7

section PatchEngineCore

/-- Core computation for the idempotence of `apply_to_file`: re-running the
pattern-A substitution on a freshly assembled output strips back to the
original stripped body, and the output carries exactly one START marker line
of each kind.  `S` is the already-stripped body (`cleaned.strip()`), `pb`
and `qb` the payloads without their final newline. -/
theorem patchA_core (sc tc : Char) (st theme tb pb qb S : Str)
    (hsc : pyIsSpace sc = false) (hstnl : '\n' ∉ (sc :: st))
    (hth : theme = tb ++ [tc]) (htc : pyIsSpace tc = false)
    (hthnl : '\n' ∉ theme)
    (hSstrip : pyStrip S = S)
    (hnS : containsSubCI S pawThemeLit = false)
    (hnP : containsSubCI pb pawThemeLit = false)
    (hnQ : containsSubCI qb pawThemeLit = false) :
    pyStrip (regexSub (specA (sc :: st) theme)
      (pyStrip (((sc :: st) ++ " PAW-THEME-PRE-START: ".toList ++ theme
            ++ '\n' :: (pb ++ ['\n'])
            ++ (sc :: st) ++ " PAW-THEME-PRE-END: ".toList ++ theme ++ "\n\n".toList)
        ++ (S ++ ['\n'])
        ++ ('\n' :: (sc :: st) ++ " PAW-THEME-POST-START: ".toList ++ theme
            ++ '\n' :: (qb ++ ['\n'])
            ++ (sc :: st) ++ " PAW-THEME-POST-END: ".toList ++ theme ++ "\n".toList)))) = S
    ∧ (splitLines (pyStrip (((sc :: st) ++ " PAW-THEME-PRE-START: ".toList ++ theme
            ++ '\n' :: (pb ++ ['\n'])
            ++ (sc :: st) ++ " PAW-THEME-PRE-END: ".toList ++ theme ++ "\n\n".toList)
        ++ (S ++ ['\n'])
        ++ ('\n' :: (sc :: st) ++ " PAW-THEME-POST-START: ".toList ++ theme
            ++ '\n' :: (qb ++ ['\n'])
            ++ (sc :: st) ++ " PAW-THEME-POST-END: ".toList ++ theme ++ "\n".toList)))).countP
        (isStartA (sc :: st) theme .pre) = 1
    ∧ (splitLines (pyStrip (((sc :: st) ++ " PAW-THEME-PRE-START: ".toList ++ theme
            ++ '\n' :: (pb ++ ['\n'])
            ++ (sc :: st) ++ " PAW-THEME-PRE-END: ".toList ++ theme ++ "\n\n".toList)
        ++ (S ++ ['\n'])
        ++ ('\n' :: (sc :: st) ++ " PAW-THEME-POST-START: ".toList ++ theme
            ++ '\n' :: (qb ++ ['\n'])
            ++ (sc :: st) ++ " PAW-THEME-POST-END: ".toList ++ theme ++ "\n".toList)))).countP
        (isStartA (sc :: st) theme .post) = 1 := by
  -- marker-line classification
  have hGPs := isStartA_gen sc st theme hsc .pre
  have hQPs := isStartA_gen sc st theme hsc .post
  have hGEe := isEndA_gen sc st theme hsc .pre
  have hQEe := isEndA_gen sc st theme hsc .post
  have hGPpost : isStartA (sc :: st) theme .post
      (genStartLine (sc :: st) theme .pre) = false :=
    isStartA_mismatch sc st theme hsc .post 'P' ("AW-THEME-PRE-START:".toList)
      (' ' :: theme) (by decide) 12 (by decide) (by decide) (by decide)
  have hQPpre : isStartA (sc :: st) theme .pre
      (genStartLine (sc :: st) theme .post) = false :=
    isStartA_mismatch sc st theme hsc .pre 'P' ("AW-THEME-POST-START:".toList)
      (' ' :: theme) (by decide) 12 (by decide) (by decide) (by decide)
  have hGEpre : isStartA (sc :: st) theme .pre
      (genEndLine (sc :: st) theme .pre) = false :=
    isStartA_mismatch sc st theme hsc .pre 'P' ("AW-THEME-PRE-END:".toList)
      (' ' :: theme) (by decide) 16 (by decide) (by decide) (by decide)
  have hGEpost : isStartA (sc :: st) theme .post
      (genEndLine (sc :: st) theme .pre) = false :=
    isStartA_mismatch sc st theme hsc .post 'P' ("AW-THEME-PRE-END:".toList)
      (' ' :: theme) (by decide) 12 (by decide) (by decide) (by decide)
  have hQEpre : isStartA (sc :: st) theme .pre
      (genEndLine (sc :: st) theme .post) = false :=
    isStartA_mismatch sc st theme hsc .pre 'P' ("AW-THEME-POST-END:".toList)
      (' ' :: theme) (by decide) 12 (by decide) (by decide) (by decide)
  have hQEpost : isStartA (sc :: st) theme .post
      (genEndLine (sc :: st) theme .post) = false :=
    isStartA_mismatch sc st theme hsc .post 'P' ("AW-THEME-POST-END:".toList)
      (' ' :: theme) (by decide) 16 (by decide) (by decide) (by decide)
  have hnilpre : isStartA (sc :: st) theme .pre [] = false :=
    isStartA_noPT _ _ _ _ (by decide)
  have hnilpost : isStartA (sc :: st) theme .post [] = false :=
    isStartA_noPT _ _ _ _ (by decide)
  have hSKnil : startKind (specA (sc :: st) theme) [] = none :=
    startKind_none_pre _ _ hnilpre hnilpost
  have hnPB := line_noPT pb hnP
  have hnQB := line_noPT qb hnQ
  have hnSO := line_noPT S hnS
  have hSKpb : ∀ l ∈ splitLines pb,
      startKind (specA (sc :: st) theme) l = none := fun l hl =>
    startKind_none_pre _ _ (isStartA_noPT _ _ _ _ (hnPB l hl))
      (isStartA_noPT _ _ _ _ (hnPB l hl))
  have hSKso : ∀ l ∈ splitLines S,
      startKind (specA (sc :: st) theme) l = none := fun l hl =>
    startKind_none_pre _ _ (isStartA_noPT _ _ _ _ (hnSO l hl))
      (isStartA_noPT _ _ _ _ (hnSO l hl))
  have hEndPB : ∀ l ∈ splitLines pb,
      (specA (sc :: st) theme).isEnd .pre l = false := fun l hl =>
    isEndA_noPT _ _ _ _ (hnPB l hl)
  have hEndQB : ∀ l ∈ splitLines qb,
      (specA (sc :: st) theme).isEnd .post l = false := fun l hl =>
    isEndA_noPT _ _ _ _ (hnQB l hl)
  have hGPnl := nl_not_mem_genStart (sc :: st) theme hstnl hthnl .pre
  have hGEnl := nl_not_mem_genEnd (sc :: st) theme hstnl hthnl .pre
  have hQPnl := nl_not_mem_genStart (sc :: st) theme hstnl hthnl .post
  have hQEnl := nl_not_mem_genEnd (sc :: st) theme hstnl hthnl .post
  -- the assembled text in marker-line form
  have hEq : ((sc :: st) ++ " PAW-THEME-PRE-START: ".toList ++ theme
        ++ '\n' :: (pb ++ ['\n'])
        ++ (sc :: st) ++ " PAW-THEME-PRE-END: ".toList ++ theme ++ "\n\n".toList)
      ++ (S ++ ['\n'])
      ++ ('\n' :: (sc :: st) ++ " PAW-THEME-POST-START: ".toList ++ theme
        ++ '\n' :: (qb ++ ['\n'])
        ++ (sc :: st) ++ " PAW-THEME-POST-END: ".toList ++ theme ++ "\n".toList)
      = (genStartLine (sc :: st) theme .pre ++ '\n' :: (pb ++ '\n' ::
          (genEndLine (sc :: st) theme .pre ++ '\n' :: ('\n' :: (S ++ '\n' ::
          ('\n' :: (genStartLine (sc :: st) theme .post ++ '\n' :: (qb ++ '\n' ::
          genEndLine (sc :: st) theme .post)))))))) ++ ['\n'] := by
    rw [litP1_toList, litP2_toList, litQ1_toList, litQ2_toList,
      nlnl_toList, nl_toList]
    simp [genStartLine, genEndLine, List.append_assoc]
  rw [hEq]
  -- the outer strip removes exactly the final newline
  have hT1 : pyStrip ((genStartLine (sc :: st) theme .pre ++ '\n' :: (pb ++ '\n' ::
        (genEndLine (sc :: st) theme .pre ++ '\n' :: ('\n' :: (S ++ '\n' ::
        ('\n' :: (genStartLine (sc :: st) theme .post ++ '\n' :: (qb ++ '\n' ::
        genEndLine (sc :: st) theme .post)))))))) ++ ['\n'])
      = genStartLine (sc :: st) theme .pre ++ '\n' :: (pb ++ '\n' ::
        (genEndLine (sc :: st) theme .pre ++ '\n' :: ('\n' :: (S ++ '\n' ::
        ('\n' :: (genStartLine (sc :: st) theme .post ++ '\n' :: (qb ++ '\n' ::
        genEndLine (sc :: st) theme .post))))))) := by
    unfold pyStrip
    rw [pyLStrip_eq_self_of_headI _ (by simp [genStartLine]) (by
      rw [show ((genStartLine (sc :: st) theme .pre ++ '\n' :: (pb ++ '\n' ::
        (genEndLine (sc :: st) theme .pre ++ '\n' :: ('\n' :: (S ++ '\n' ::
        ('\n' :: (genStartLine (sc :: st) theme .post ++ '\n' :: (qb ++ '\n' ::
        genEndLine (sc :: st) theme .post)))))))) ++ ['\n']).headI = sc from rfl]
      exact hsc)]
    rw [pyRStrip_snoc_ws _ '\n' (by decide)]
    have hV : genStartLine (sc :: st) theme .pre ++ '\n' :: (pb ++ '\n' ::
        (genEndLine (sc :: st) theme .pre ++ '\n' :: ('\n' :: (S ++ '\n' ::
        ('\n' :: (genStartLine (sc :: st) theme .post ++ '\n' :: (qb ++ '\n' ::
        genEndLine (sc :: st) theme .post)))))))
        = (genStartLine (sc :: st) theme .pre ++ '\n' :: (pb ++ '\n' ::
        (genEndLine (sc :: st) theme .pre ++ '\n' :: ('\n' :: (S ++ '\n' ::
        ('\n' :: (genStartLine (sc :: st) theme .post ++ '\n' :: (qb ++ '\n' ::
        ((sc :: st) ++ ' ' :: (litEnd .post ++ ' ' :: tb)))))))))) ++ [tc] := by
      rw [hth]
      simp [genStartLine, genEndLine, List.append_assoc]
    rw [hV, pyRStrip_snoc_nonws _ tc htc]
  rw [hT1]
  -- line decomposition of the assembled text
  have hsplit : splitLines (genStartLine (sc :: st) theme .pre ++ '\n' :: (pb ++ '\n' ::
        (genEndLine (sc :: st) theme .pre ++ '\n' :: ('\n' :: (S ++ '\n' ::
        ('\n' :: (genStartLine (sc :: st) theme .post ++ '\n' :: (qb ++ '\n' ::
        genEndLine (sc :: st) theme .post))))))))
      = genStartLine (sc :: st) theme .pre :: (splitLines pb
          ++ genEndLine (sc :: st) theme .pre :: [] :: (splitLines S
          ++ [] :: genStartLine (sc :: st) theme .post :: (splitLines qb
          ++ [genEndLine (sc :: st) theme .post]))) := by
    rw [splitLines_append, splitLines_no_nl _ hGPnl, splitLines_append,
      splitLines_append, splitLines_no_nl _ hGEnl, splitLines_nl_cons,
      splitLines_append, splitLines_nl_cons, splitLines_append,
      splitLines_no_nl _ hQPnl, splitLines_append, splitLines_no_nl _ hQEnl]
    simp
  unfold regexSub
  rw [hsplit]
  have hblQP : lineIsBlank (genStartLine (sc :: st) theme .post) = false := by
    rw [show genStartLine (sc :: st) theme .post
      = sc :: (st ++ ' ' :: (litStart .post ++ ' ' :: theme)) from rfl]
    exact lineIsBlank_cons_nonws _ _ hsc
  -- the first match: PRE block from the head line to its END marker
  have hfind1 : findM (specA (sc :: st) theme)
      (genStartLine (sc :: st) theme .pre :: (splitLines pb
        ++ genEndLine (sc :: st) theme .pre :: [] :: (splitLines S
        ++ [] :: genStartLine (sc :: st) theme .post :: (splitLines qb
        ++ [genEndLine (sc :: st) theme .post]))))
      = some ([], .pre, genStartLine (sc :: st) theme .pre,
          genEndLine (sc :: st) theme .pre,
          [] :: (splitLines S ++ [] :: genStartLine (sc :: st) theme .post ::
            (splitLines qb ++ [genEndLine (sc :: st) theme .post]))) :=
    findM_calc_start _ _ _ _ _ _
      (startEnd_calc _ _ _ .pre (startKind_calc_pre _ _ hGPs) _ _
        (dropThroughEnd_calc _ _ (splitLines pb) hEndPB _ _ hGEe))
  -- the second match: POST block reached through the blank junction
  have hfindB : findM (specA (sc :: st) theme)
      ([] :: genStartLine (sc :: st) theme .post :: (splitLines qb
        ++ [genEndLine (sc :: st) theme .post]))
      = some ([], .post, genStartLine (sc :: st) theme .post,
          genEndLine (sc :: st) theme .post, []) :=
    findM_calc_blank _ _ _ (startEnd_of_none _ _ _ hSKnil) rfl _ _ _ _
      (leadsToStart_calc_start _ _ _ _ _ _
        (startEnd_calc _ _ _ .post
          (startKind_calc_post _ _ hQPpre hQPs) _ _
          (dropThroughEnd_calc _ _ (splitLines qb) hEndQB _ _ hQEe)))
  obtain ⟨m, hm⟩ : ∃ m, (genStartLine (sc :: st) theme .pre :: (splitLines pb
      ++ genEndLine (sc :: st) theme .pre :: [] :: (splitLines S
      ++ [] :: genStartLine (sc :: st) theme .post :: (splitLines qb
      ++ [genEndLine (sc :: st) theme .post])))).length = m + 1 + 1 :=
    ⟨(genStartLine (sc :: st) theme .pre :: (splitLines pb
      ++ genEndLine (sc :: st) theme .pre :: [] :: (splitLines S
      ++ [] :: genStartLine (sc :: st) theme .post :: (splitLines qb
      ++ [genEndLine (sc :: st) theme .post])))).length - 2, by
        simp [List.length_append, List.length_cons]
        omega⟩
  rw [hm]
  refine ⟨?_, ?_, ?_⟩
  · -- strip of the rescanned output equals the stripped body
    by_cases hS : S = []
    · subst hS
      rw [show splitLines ([] : Str) = [[]] from rfl] at hfind1 ⊢
      simp only [List.singleton_append] at hfind1 ⊢
      have hcont1 : contA ([] :: ([] : Line) :: ([] : Line) ::
          genStartLine (sc :: st) theme .post :: (splitLines qb
            ++ [genEndLine (sc :: st) theme .post]))
          = some (false, [] :: genStartLine (sc :: st) theme .post ::
              (splitLines qb ++ [genEndLine (sc :: st) theme .post])) :=
        contA_calc [[], [], []] _ _
          (by intro l hl; simp at hl; subst hl; rfl) rfl hblQP
      rw [subGo_scan _ (m + 1) _ _ _ _ _ _ _ hfind1 rfl hcont1,
        subGo_eof _ m _ _ _ _ _ _ hfindB rfl contA_nil]
      rfl
    · obtain ⟨c₀, S', hScons⟩ : ∃ c t, S = c :: t := by
        cases S with
        | nil => exact absurd rfl hS
        | cons c t => exact ⟨c, t, rfl⟩
      have hc₀ : pyIsSpace c₀ = false :=
        pyStrip_head_nonws S c₀ S' (by rw [hSstrip]; exact hScons)
      have hc₀nl : c₀ ≠ '\n' := by
        intro he
        rw [he] at hc₀
        cases hc₀
      have hSO : splitLines S
          = (c₀ :: (splitLines S').headI) :: (splitLines S').tail := by
        rw [hScons]
        exact splitLines_cons_of_ne c₀ S' hc₀nl
      have hx₀bl : lineIsBlank (c₀ :: (splitLines S').headI) = false :=
        lineIsBlank_cons_nonws _ _ hc₀
      obtain ⟨W, lc, hWlc⟩ : ∃ W lc, S = W ++ [lc] := by
        rcases List.eq_nil_or_concat S with h | ⟨W, lc, hL⟩
        · exact absurd h hS
        · rw [List.concat_eq_append] at hL
          exact ⟨W, lc, hL⟩
      have hlc : pyIsSpace lc = false :=
        pyStrip_last_nonws S lc W (by rw [hSstrip]; exact hWlc)
      obtain ⟨A₀, x₀, hSOdec, hx₀⟩ := splitLines_concat_nonws lc hlc W
      rw [← hWlc] at hSOdec
      have hcont1 : contA ([] :: (splitLines S
          ++ [] :: genStartLine (sc :: st) theme .post :: (splitLines qb
            ++ [genEndLine (sc :: st) theme .post])))
          = some (false, [] :: (splitLines S
            ++ [] :: genStartLine (sc :: st) theme .post :: (splitLines qb
              ++ [genEndLine (sc :: st) theme .post]))) := by
        rw [hSO]
        exact contA_calc [[]] _ _
          (by intro l hl; simp at hl; subst hl; rfl) rfl hx₀bl
      have hfind2 : findM (specA (sc :: st) theme) ([] :: (splitLines S
          ++ [] :: genStartLine (sc :: st) theme .post :: (splitLines qb
            ++ [genEndLine (sc :: st) theme .post])))
          = some ([] :: splitLines S, .post,
              genStartLine (sc :: st) theme .post,
              genEndLine (sc :: st) theme .post, []) := by
        have hstep := findM_calc_append (specA (sc :: st) theme)
          ([] :: splitLines S)
          ([] :: genStartLine (sc :: st) theme .post :: (splitLines qb
            ++ [genEndLine (sc :: st) theme .post]))
          (by
            intro l hl
            rcases List.mem_cons.mp hl with h | h
            · rw [h]; exact hSKnil
            · exact hSKso l h)
          (Or.inr ⟨[] :: A₀, x₀, by rw [hSOdec]; rfl, hx₀⟩)
        rw [show ([] : Line) :: (splitLines S
            ++ [] :: genStartLine (sc :: st) theme .post :: (splitLines qb
              ++ [genEndLine (sc :: st) theme .post]))
          = ([] :: splitLines S)
            ++ ([] :: genStartLine (sc :: st) theme .post :: (splitLines qb
              ++ [genEndLine (sc :: st) theme .post])) from by simp]
        rw [hstep, hfindB]
        simp
      rw [subGo_scan _ (m + 1) _ _ _ _ _ _ _ hfind1 rfl hcont1,
        subGo_eof _ m _ _ _ _ _ _ hfind2 rfl contA_nil]
      rw [show ([] : List Line) ++ (([] :: splitLines S) ++ [[]])
        = [] :: (splitLines S ++ [[]]) from by simp]
      rw [joinLines_cons _ _ (by simp),
        joinLines_append _ _ (splitLines_ne_nil S) (by simp),
        join_splitLines S,
        show joinLines [[]] = ([] : Str) from rfl]
      rw [show ([] : Str) ++ '\n' :: (S ++ '\n' :: []) = '\n' :: S ++ ['\n'] from by simp]
      rw [pyStrip_wrap S]
      exact hSstrip
  · -- exactly one PRE-START marker line
    have hcPB : (splitLines pb).countP (isStartA (sc :: st) theme .pre) = 0 :=
      List.countP_eq_zero.mpr (fun l hl => by
        simp [isStartA_noPT _ _ _ _ (hnPB l hl)])
    have hcSO : (splitLines S).countP (isStartA (sc :: st) theme .pre) = 0 :=
      List.countP_eq_zero.mpr (fun l hl => by
        simp [isStartA_noPT _ _ _ _ (hnSO l hl)])
    have hcQB : (splitLines qb).countP (isStartA (sc :: st) theme .pre) = 0 :=
      List.countP_eq_zero.mpr (fun l hl => by
        simp [isStartA_noPT _ _ _ _ (hnQB l hl)])
    simp [List.countP_cons, List.countP_append, hGPs, hGEpre, hQPpre, hQEpre,
      hnilpre, hcPB, hcSO, hcQB]
  · -- exactly one POST-START marker line
    have hcPB : (splitLines pb).countP (isStartA (sc :: st) theme .post) = 0 :=
      List.countP_eq_zero.mpr (fun l hl => by
        simp [isStartA_noPT _ _ _ _ (hnPB l hl)])
    have hcSO : (splitLines S).countP (isStartA (sc :: st) theme .post) = 0 :=
      List.countP_eq_zero.mpr (fun l hl => by
        simp [isStartA_noPT _ _ _ _ (hnSO l hl)])
    have hcQB : (splitLines qb).countP (isStartA (sc :: st) theme .post) = 0 :=
      List.countP_eq_zero.mpr (fun l hl => by
        simp [isStartA_noPT _ _ _ _ (hnQB l hl)])
    simp [List.countP_cons, List.countP_append, hGPpost, hGEpost, hQPs, hQEpost,
      hnilpost, hcPB, hcSO, hcQB]

end PatchEngineCore

/-- C2 (amended): for every extension, theme name whose last character is
not whitespace and which contains no newline, pre/post payloads each ending
in a newline, and original content, where none of the original and the
payloads contains the (case-insensitive) `PAW-THEME` literal, applying
`PatchEngine.apply_to_file` twice leaves the file byte-identical to applying
it once, and the written file contains exactly one PRE marker block and
exactly one POST marker block for that theme (counted by their START marker
lines). -/
theorem C2_apply_to_file_idempotent (ext theme pre post original : Str)
    (hpre : ∃ pb, pre = pb ++ ['\n'])
    (hpost : ∃ qb, post = qb ++ ['\n'])
    (hnO : containsSubCI original pawThemeLit = false)
    (hnP : containsSubCI pre pawThemeLit = false)
    (hnQ : containsSubCI post pawThemeLit = false)
    (hth : ∃ tb tc, theme = tb ++ [tc] ∧ pyIsSpace tc = false)
    (hthnl : '\n' ∉ theme) :
    applyToFile ext theme pre post (applyToFile ext theme pre post original)
      = applyToFile ext theme pre post original
    ∧ (splitLines (applyToFile ext theme pre post original)).countP
        (isStartA (getCommentStyle ext) theme .pre) = 1
    ∧ (splitLines (applyToFile ext theme pre post original)).countP
        (isStartA (getCommentStyle ext) theme .post) = 1 := by
  obtain ⟨pb, hpb⟩ := hpre
  obtain ⟨qb, hqb⟩ := hpost
  obtain ⟨tb, tc, htheq, htc⟩ := hth
  have hpreE : pre.isEmpty = false := by rw [hpb]; cases pb <;> rfl
  have hpostE : post.isEmpty = false := by rw [hqb]; cases qb <;> rfl
  have hnPb : containsSubCI pb pawThemeLit = false :=
    containsSubCI_parts pre pawThemeLit hnP [] pb ['\n'] (by rw [hpb]; rfl)
  have hnQb : containsSubCI qb pawThemeLit = false :=
    containsSubCI_parts post pawThemeLit hnQ [] qb ['\n'] (by rw [hqb]; rfl)
  have hnS : containsSubCI (pyStrip original) pawThemeLit = false := by
    obtain ⟨a, b, hab⟩ := pyStrip_parts original
    exact containsSubCI_parts original pawThemeLit hnO a _ b hab
  have hsty : getCommentStyle ext = '/' :: ['/'] ∨ getCommentStyle ext = '#' :: [] := by
    unfold getCommentStyle
    by_cases h1 : ext = ".json".toList
    · rw [if_pos h1]; left; rfl
    · rw [if_neg h1]
      right
      split_ifs <;> rfl
  unfold applyToFile
  simp only [hpreE, hpostE, Bool.false_eq_true, if_false]
  rw [regexSub_specA_noPT (getCommentStyle ext) theme original hnO]
  rcases hsty with hsty | hsty
  · rw [hsty, hpb, hqb]
    have hcore := patchA_core '/' tc ['/'] theme tb pb qb (pyStrip original)
      (by decide) (by decide) htheq htc hthnl (pyStrip_idem original)
      hnS hnPb hnQb
    refine ⟨?_, hcore.2.1, hcore.2.2⟩
    rw [hcore.1]
  · rw [hsty, hpb, hqb]
    have hcore := patchA_core '#' tc [] theme tb pb qb (pyStrip original)
      (by decide) (by decide) htheq htc hthnl (pyStrip_idem original)
      hnS hnPb hnQb
    refine ⟨?_, hcore.2.1, hcore.2.2⟩
    rw [hcore.1]

/-- Witness for C2 at concrete arguments: a marker-free `.conf` file themed
with `T` and newline-terminated payloads. -/
theorem C2_apply_to_file_idempotent_witness :
    applyToFile ".conf".toList "T".toList "a\n".toList "p\n".toList
        (applyToFile ".conf".toList "T".toList "a\n".toList "p\n".toList
          "keep\n".toList)
      = applyToFile ".conf".toList "T".toList "a\n".toList "p\n".toList
          "keep\n".toList
    ∧ (splitLines (applyToFile ".conf".toList "T".toList "a\n".toList
          "p\n".toList "keep\n".toList)).countP
        (isStartA (getCommentStyle ".conf".toList) "T".toList .pre) = 1
    ∧ (splitLines (applyToFile ".conf".toList "T".toList "a\n".toList
          "p\n".toList "keep\n".toList)).countP
        (isStartA (getCommentStyle ".conf".toList) "T".toList .post) = 1 :=
  C2_apply_to_file_idempotent ".conf".toList "T".toList "a\n".toList
    "p\n".toList "keep\n".toList
    ⟨['a'], by decide⟩ ⟨['p'], by decide⟩ (by decide) (by decide) (by decide)
    ⟨[], 'T', by decide, by decide⟩ (by decide)

/-- The unamended claim is false: an original file containing a stray
unmatched `# PAW-THEME-POST-START: T` marker line is not mapped
idempotently — the second application pairs the stray START with the
freshly written POST-END and deletes the intervening user content. -/
theorem C2_stray_marker_breaks_idempotence :
    applyToFile ".conf".toList "T".toList "a\n".toList "p\n".toList
        (applyToFile ".conf".toList "T".toList "a\n".toList "p\n".toList
          "# PAW-THEME-POST-START: T\nkeep\n".toList)
      ≠ applyToFile ".conf".toList "T".toList "a\n".toList "p\n".toList
          "# PAW-THEME-POST-START: T\nkeep\n".toList := by decide
